import Mathlib

/-
Shallow embedding of the fileshred repository (src/shred.go).

The filesystem is modeled as an association list from paths to entries; an
entry is either a data file (only its byte size is tracked; the overwrite
passes replace the content with random bytes, which the claims only
constrain by length) or a serialized checkpoint record (the JSON document
written by saveMetadata).  Every filesystem mutation performed by Shred is
recorded in an event trace, and the filesystem state reached right after
each successful checkpoint write is snapshotted, so that claims about
kill/resume behavior can be stated by restarting Shred from a snapshot.

External nondeterminism (the flock probe of another process, failures of
crypto/rand.Read, of WriteAt and of os.Remove, and the random bytes
themselves) is supplied by an explicit environment.  Filesystem operations
whose outcome is determined by the modeled state (stat, open for write,
rename) succeed exactly when their precondition holds in the model: a path
can be stat-ed or opened iff it is present, a rename requires its source.
An os.Remove fails when its target is absent (ENOENT) and can also fail on
a present target when the environment injects a failure (permission or I/O
error), matching the two return-err branches of the removes in shred.go.
The blocking flock acquisition on the opened temp file and the handle-based
Truncate are modeled as always succeeding.
-/

namespace FileShred

deriving instance DecidableEq for Except

/-- Character set used by randomString in shred.go; 62 alphanumeric characters. -/
def charset : String := "abcdefghijklmnopqrstuvwxyzABCDEFGHIJKLMNOPQRSTUVWXYZ0123456789"

/-- The characters of the charset as a list. -/
def charsetChars : List Char := charset.data

/-- Reduction of one random byte to one output character, as in shred.go:
b[i] = charset[int(b[i]) % len(charset)], with len(charset) = 62. -/
def randChar (b : Nat) : Char := charsetChars.getD (b % 62) 'a'

/-- Model of randomString over a given stream of random bytes: the i-th output
character is randChar of the i-th byte delivered by rand.Read (bytes are
reduced modulo 256 to the byte range). -/
def randomStringBytes (bytes : Nat → Nat) (length : Nat) : String :=
  String.mk ((List.range length).map (fun i => randChar (bytes i % 256)))

/-- The ShredMetadata record of shred.go: Pass is an int64 (no arithmetic in the
program can overflow it, so it is modeled as Int), TempPath and OriginalPath
are the working and the user-supplied path. -/
structure ShredMetadata where
  Pass : Int
  TempPath : String
  OriginalPath : String
  deriving DecidableEq, Repr

/-- An on-disk entry: a data file of a given byte size, or a serialized
checkpoint record.  The byte size of a serialized checkpoint is not modeled
(no claim depends on stat-ing a checkpoint file), so entrySize reports 0 for
it. -/
inductive Entry where
  | data (size : Nat)
  | meta (m : ShredMetadata)
  deriving DecidableEq, Repr

/-- The filesystem: an association list from paths to entries. -/
abbrev FS := List (String × Entry)

/-- Look up a path. -/
def fsGet : FS → String → Option Entry
  | [], _ => none
  | (k, v) :: rest, key => if k = key then some v else fsGet rest key

/-- Create or replace the entry at a path. -/
def fsSet : FS → String → Entry → FS
  | [], key, v => [(key, v)]
  | (k, w) :: rest, key, v =>
    if k = key then (k, v) :: rest else (k, w) :: fsSet rest key v

/-- Remove the entry at a path. -/
def fsErase : FS → String → FS
  | [], _ => []
  | (k, v) :: rest, key =>
    if k = key then fsErase rest key else (k, v) :: fsErase rest key

/-- Byte size reported by os.Stat for an entry. -/
def entrySize : Entry → Nat
  | .data s => s
  | .meta _ => 0

/-- Observable filesystem events performed by Shred, in program order.
Events are recorded only for operations that actually complete. -/
inductive Ev where
  | renameEv (src : String) (dst : String)
  | saveMeta (m : ShredMetadata)
  | lockCheck (path : String) (result : Bool)
  | randRead (len : Nat)
  | writeAt (path : String) (off : Nat) (len : Nat)
  | truncateEv (path : String)
  | removeEv (path : String)
  deriving DecidableEq, Repr

/-- Error results of Shred, one per return-err site of shred.go:
notFound is the os.Stat failure on a missing path, sizeExceeded the 1 GiB
bound, busy the isFileLocked abort, openErr the OpenFile failure on the
temp path, randErr a crypto/rand failure, writeErr a WriteAt failure,
renameErr an os.Rename failure, removeErr an os.Remove failure. -/
inductive ShredError where
  | notFound
  | sizeExceeded
  | busy
  | openErr
  | randErr
  | writeErr
  | renameErr
  | removeErr
  deriving DecidableEq, Repr

/-- External environment of one Shred invocation: whether another process
holds a conflicting flock on the temp path when isFileLocked probes it,
whether the k-th rand.Read call succeeds, whether the k-th WriteAt call
succeeds, the random bytes delivered by the k-th rand.Read call, and
whether an os.Remove of a given (present) path succeeds or fails with a
permission or I/O error. -/
structure Env where
  tempLocked : Bool
  randOk : Nat → Bool
  writeOk : Nat → Bool
  randBytes : Nat → Nat → Nat
  removeOk : String → Bool

/-- Execution state threaded through Shred: the filesystem, the event trace,
the snapshots of the filesystem taken right after each successful checkpoint
write, and counters of rand.Read and WriteAt calls made so far. -/
structure St where
  fs : FS
  trace : List Ev
  ckpts : List FS
  randC : Nat
  writeC : Nat
  deriving Repr

/-- Append one event to the trace. -/
def emit (st : St) (e : Ev) : St := { st with trace := st.trace ++ [e] }

/-- The storage path of the checkpoint for a metadata record, as used by
saveMetadata in shred.go: OriginalPath + ".shredmeta". -/
def metaStorePath (m : ShredMetadata) : String := m.OriginalPath ++ ".shredmeta"

/-- saveMetadata of shred.go: os.Create on OriginalPath + ".shredmeta" followed
by a JSON encode, i.e. a whole-record replace of the checkpoint file. -/
def saveMetadata (fs : FS) (m : ShredMetadata) : FS :=
  fsSet fs (metaStorePath m) (.meta m)

/-- Perform a checkpoint write: update the filesystem, record the event, and
snapshot the resulting filesystem. -/
def doSave (st : St) (m : ShredMetadata) : St :=
  let fs2 := saveMetadata st.fs m
  { st with fs := fs2, trace := st.trace ++ [Ev.saveMeta m], ckpts := st.ckpts ++ [fs2] }

/-- loadMetadata of shred.go: open path + ".shredmeta" and JSON-decode it.
It yields a record only when the file exists and holds a well-formed
checkpoint; any failure makes Shred fall back to a fresh record. -/
def loadMetadata (fs : FS) (path : String) : Option ShredMetadata :=
  match fsGet fs (path ++ ".shredmeta") with
  | some (.meta m) => some m
  | _ => none

/-- isFileLocked of shred.go: open the path for writing, returning false when
the open fails; otherwise probe a non-blocking exclusive flock, returning
true exactly when the probe fails because of a conflicting lock. -/
def isFileLocked (openOk : Bool) (flockConflict : Bool) : Bool :=
  if openOk then
    if flockConflict then true else false
  else false

/-- The overwrite loop of shred.go (lines 157-176): for i from metadata.Pass
while i < passes, fill the buffer of bufLen bytes from crypto/rand, write it
at offset 0 of the temp file, then persist metadata with Pass = i + 1.
The iteration count (passes - Pass), clamped at zero, is passed as fuel;
the metadata record carries the current value of i. -/
def overwriteLoop (env : Env) (tempPath : String) (bufLen : Nat) :
    ShredMetadata → Nat → St → Except ShredError ShredMetadata × St
  | m, 0, st => (.ok m, st)
  | m, fuel + 1, st =>
    if env.randOk st.randC then
      let st1 := { emit st (.randRead bufLen) with randC := st.randC + 1 }
      if env.writeOk st1.writeC then
        let oldSize := entrySize ((fsGet st1.fs tempPath).getD (.data 0))
        let st2 := { emit st1 (.writeAt tempPath 0 bufLen) with
                     writeC := st1.writeC + 1,
                     fs := fsSet st1.fs tempPath (.data (max oldSize bufLen)) }
        let m2 := { m with Pass := m.Pass + 1 }
        let st3 := doSave st2 m2
        overwriteLoop env tempPath bufLen m2 fuel st3
      else (.error .writeErr, { st1 with writeC := st1.writeC + 1 })
    else (.error .randErr, { st with randC := st.randC + 1 })

/-- The rename loop of shred.go (lines 178-196): ten rounds, each generating a
12-character random suffix, renaming the working file to TempPath + "." +
suffix, and persisting the updated TempPath.  A rename fails exactly when
its source path is absent. -/
def renameLoop (env : Env) :
    ShredMetadata → Nat → St → Except ShredError ShredMetadata × St
  | m, 0, st => (.ok m, st)
  | m, fuel + 1, st =>
    if env.randOk st.randC then
      let suffix := randomStringBytes (env.randBytes st.randC) 12
      let st1 := { emit st (.randRead 12) with randC := st.randC + 1 }
      let newPath := m.TempPath ++ "." ++ suffix
      match fsGet st1.fs m.TempPath with
      | none => (.error .renameErr, st1)
      | some e =>
        let st2 := { emit st1 (.renameEv m.TempPath newPath) with
                     fs := fsSet (fsErase st1.fs m.TempPath) newPath e }
        let m2 := { m with TempPath := newPath }
        let st3 := doSave st2 m2
        renameLoop env m2 fuel st3
    else (.error .randErr, { st with randC := st.randC + 1 })

/-- The cleanup tail of shred.go (lines 198-214): truncate the temp file to 0
bytes through the handle held since before the overwrite loop (the handle
refers to the inode that after the renames resides at TempPath, and the
truncate always succeeds in the model), then remove the checkpoint file,
then remove the renamed working file, in that order.  Each os.Remove has
its own return-err branch in the source: a remove fails when its target is
absent, and can also fail on a present target when the environment injects
a failure (permission or I/O error); the second remove is attempted only
after the first one has already deleted the checkpoint file. -/
def cleanupPhase (env : Env) (m : ShredMetadata) (st : St) : Except ShredError Unit × St :=
  let st1 := { emit st (.truncateEv m.TempPath) with fs := fsSet st.fs m.TempPath (.data 0) }
  match fsGet st1.fs (metaStorePath m) with
  | none => (.error .removeErr, st1)
  | some _ =>
    if env.removeOk (metaStorePath m) then
      let st2 := { emit st1 (.removeEv (metaStorePath m)) with
                   fs := fsErase st1.fs (metaStorePath m) }
      match fsGet st2.fs m.TempPath with
      | none => (.error .removeErr, st2)
      | some _ =>
        if env.removeOk m.TempPath then
          (.ok (), { emit st2 (.removeEv m.TempPath) with fs := fsErase st2.fs m.TempPath })
        else (.error .removeErr, st2)
    else (.error .removeErr, st1)

/-- Result of one Shred invocation: the returned value, the final filesystem,
the event trace, and the snapshots taken after each checkpoint write. -/
structure ShredOut where
  result : Except ShredError Unit
  fs : FS
  trace : List Ev
  ckpts : List FS
  deriving Repr

/-- Package a result with the final execution state. -/
def outOf (r : Except ShredError Unit) (st : St) : ShredOut :=
  ⟨r, st.fs, st.trace, st.ckpts⟩

/-- The part of Shred from the isFileLocked check on the temp path onward
(shred.go lines 137-224), starting from metadata m1 and state st1, with size
the byte size reported by the initial os.Stat of the original path. -/
def shredMain (env : Env) (size : Nat) (passes : Int)
    (m1 : ShredMetadata) (st1 : St) : ShredOut :=
  let openable := (fsGet st1.fs m1.TempPath).isSome
  let lk := isFileLocked openable env.tempLocked
  let st2 := emit st1 (.lockCheck m1.TempPath lk)
  if lk then outOf (.error .busy) st2
  else if openable then
    match overwriteLoop env m1.TempPath size m1 (passes - m1.Pass).toNat st2 with
    | (.error e, st3) => outOf (.error e) st3
    | (.ok m2, st3) =>
      match renameLoop env m2 10 st3 with
      | (.error e, st4) => outOf (.error e) st4
      | (.ok m3, st4) =>
        match cleanupPhase env m3 st4 with
        | (r, st5) => outOf r st5
  else outOf (.error .openErr) st2

/-- Shred of shred.go (lines 107-225): stat the original path, reject files
over 1 GiB, load or synthesize the checkpoint, rename the original file to
path + ".tmp" on a fresh job and persist the checkpoint, then check the
contention guard, open and lock the temp file, run the overwrite passes,
the ten rename rounds, and the cleanup.  The initial rename succeeds
because the preceding stat found the source. -/
def Shred (env : Env) (fs0 : FS) (path : String) (passes : Int) : ShredOut :=
  match fsGet fs0 path with
  | none => ⟨.error .notFound, fs0, [], []⟩
  | some e0 =>
    if entrySize e0 > 1024 * 1024 * 1024 then ⟨.error .sizeExceeded, fs0, [], []⟩
    else
      let st0 : St := ⟨fs0, [], [], 0, 0⟩
      let m0 := (loadMetadata fs0 path).getD ⟨0, "", path⟩
      if m0.TempPath = "" then
        let tempPath := path ++ ".tmp"
        let stA := { emit st0 (.renameEv path tempPath) with
                     fs := fsSet (fsErase st0.fs path) tempPath e0 }
        let mA := { m0 with TempPath := tempPath }
        shredMain env (entrySize e0) passes mA (doSave stA mA)
      else shredMain env (entrySize e0) passes m0 st0

/-- The sequence of Pass values carried by the checkpoint writes of a trace,
in the order they were persisted. -/
def savesOf (t : List Ev) : List Int :=
  t.filterMap (fun e => match e with | .saveMeta m => some m.Pass | _ => none)

/-- Whether an event is a contention-guard check. -/
def isLockCheckEv : Ev → Bool
  | .lockCheck _ _ => true
  | _ => false

/-- Whether an event is a contention-guard check on the given path. -/
def isLockCheckOn (q : String) : Ev → Bool
  | .lockCheck p _ => p == q
  | _ => false

/-- Whether an event is a file removal. -/
def isRemoveEv : Ev → Bool
  | .removeEv _ => true
  | _ => false

/-- The three events of one overwrite pass with index m.Pass + k: fill the
random buffer, write it over the file at offset 0, persist Pass + 1. -/
def passBlock (tempPath : String) (bufLen : Nat) (m : ShredMetadata) (k : Nat) : List Ev :=
  [.randRead bufLen, .writeAt tempPath 0 bufLen,
   .saveMeta { m with Pass := m.Pass + (k + 1) }]

/-- The events of the whole overwrite loop when every rand.Read and WriteAt
succeeds. -/
def passBlocksExt (tempPath : String) (bufLen : Nat) (m : ShredMetadata) (fuel : Nat) :
    List Ev :=
  ((List.range fuel).map (passBlock tempPath bufLen m)).flatten

/-- The sequence of working paths produced by the rename rounds: starting
from t, round k appends "." and the 12-character suffix generated from the
bytes of rand.Read call number c0 + k. -/
def tpSeq (env : Env) (c0 : Nat) (t : String) : Nat → String
  | 0 => t
  | k + 1 => tpSeq env c0 t k ++ "." ++ randomStringBytes (env.randBytes (c0 + k)) 12

/-- The three events of rename round k: generate the suffix, rename the
working file, persist the updated TempPath. -/
def roundBlock (env : Env) (c0 : Nat) (m : ShredMetadata) (k : Nat) : List Ev :=
  [.randRead 12,
   .renameEv (tpSeq env c0 m.TempPath k) (tpSeq env c0 m.TempPath (k + 1)),
   .saveMeta { m with TempPath := tpSeq env c0 m.TempPath (k + 1) }]

/-- The events of the whole rename loop when every rand.Read succeeds and the
working file is present throughout. -/
def roundBlocksExt (env : Env) (c0 : Nat) (m : ShredMetadata) (fuel : Nat) : List Ev :=
  ((List.range fuel).map (roundBlock env c0 m)).flatten

/-- An environment in which nothing fails: no conflicting lock, every
rand.Read, WriteAt and os.Remove succeeds, and every random byte is 0. -/
def envHappy : Env := ⟨false, fun _ => true, fun _ => true, fun _ _ => 0, fun _ => true⟩

/-- An environment identical to envHappy except that another process holds a
conflicting lock on the temp path. -/
def envBusy : Env := ⟨true, fun _ => true, fun _ => true, fun _ _ => 0, fun _ => true⟩

/-- An environment identical to envHappy except that every os.Remove fails
(permission or I/O error) except the remove of the checkpoint file
f.shredmeta: in a run on file f the checkpoint removal succeeds and the
final removal of the renamed working file then fails. -/
def envRemoveFail : Env :=
  ⟨false, fun _ => true, fun _ => true, fun _ _ => 0, fun p => p == "f.shredmeta"⟩

/-- A filesystem holding a single 1-byte file named f. -/
def fsSmall : FS := [("f", .data 1)]

/-- The filesystem state reached right after the first checkpoint write of
Shred envHappy fsSmall "f" 1: the file has been renamed to f.tmp and the
checkpoint records TempPath = f.tmp with no pass completed. -/
def fsAfterCkpt : FS :=
  [("f.tmp", .data 1), ("f.shredmeta", .meta ⟨0, "f.tmp", "f"⟩)]

/-- A filesystem holding file f together with a checkpoint recording two
completed passes on working file f.tmp. -/
def fsStale : FS :=
  [("f", .data 1), ("f.shredmeta", .meta ⟨2, "f.tmp", "f"⟩), ("f.tmp", .data 1)]

theorem fsGet_fsSet_self (fs : FS) (k : String) (v : Entry) :
    fsGet (fsSet fs k v) k = some v := by
  induction fs with
  | nil => simp [fsSet, fsGet]
  | cons kv rest ih =>
    obtain ⟨k1, v1⟩ := kv
    by_cases h : k1 = k
    · simp [fsSet, h, fsGet]
    · simp [fsSet, h, fsGet, ih]

theorem fsGet_fsSet_ne (fs : FS) (k k2 : String) (v : Entry) (h : k ≠ k2) :
    fsGet (fsSet fs k v) k2 = fsGet fs k2 := by
  induction fs with
  | nil => simp [fsSet, fsGet, h]
  | cons kv rest ih =>
    obtain ⟨k1, v1⟩ := kv
    by_cases h1 : k1 = k
    · subst h1
      simp [fsSet, fsGet, h]
    · simp [fsSet, h1, fsGet, ih]

theorem fsGet_fsErase_self (fs : FS) (k : String) :
    fsGet (fsErase fs k) k = none := by
  induction fs with
  | nil => simp [fsErase, fsGet]
  | cons kv rest ih =>
    obtain ⟨k1, v1⟩ := kv
    by_cases h : k1 = k
    · simp [fsErase, h, ih]
    · simp [fsErase, h, fsGet, ih]

theorem fsGet_fsErase_ne (fs : FS) (k k2 : String) (h : k ≠ k2) :
    fsGet (fsErase fs k) k2 = fsGet fs k2 := by
  induction fs with
  | nil => simp [fsErase, fsGet]
  | cons kv rest ih =>
    obtain ⟨k1, v1⟩ := kv
    by_cases h1 : k1 = k
    · subst h1
      simp [fsErase, fsGet, h, ih]
    · simp [fsErase, h1, fsGet, ih]

theorem charsetChars_length : charsetChars.length = 62 := by decide

theorem randChar_mem (b : Nat) : randChar b ∈ charsetChars := by
  have hlt : b % 62 < charsetChars.length := by
    rw [charsetChars_length]
    exact Nat.mod_lt _ (by norm_num)
  rw [randChar, List.getD_eq_getElem _ _ hlt]
  exact List.getElem_mem hlt

theorem dot_not_mem_charsetChars : ('.' ∈ charsetChars) = False := by decide

theorem randomStringBytes_length (f : Nat → Nat) (n : Nat) :
    (randomStringBytes f n).length = n := by
  simp [randomStringBytes, String.length]

theorem randomStringBytes_chars (f : Nat → Nat) (n : Nat) :
    ∀ c ∈ (randomStringBytes f n).data, c ∈ charsetChars := by
  intro c hc
  simp only [randomStringBytes] at hc
  obtain ⟨i, _, rfl⟩ := List.mem_map.mp hc
  exact randChar_mem _

theorem data_append_str (s t : String) : (s ++ t).data = s.data ++ t.data := by
  cases s
  cases t
  rfl

theorem metaPath_ne_dotSuffix (o t s : String) (hl : s.length = 12)
    (hc : ∀ c ∈ s.data, c ∈ charsetChars) : o ++ ".shredmeta" ≠ t ++ "." ++ s := by
  intro h
  have h2 := congrArg String.data h
  rw [data_append_str, data_append_str, data_append_str] at h2
  have hd : o.data ++ (".shredmeta").data = t.data ++ ('.' :: s.data) := by
    simpa [List.append_assoc] using h2
  have h3 := congrArg List.reverse hd
  rw [List.reverse_append, List.reverse_append] at h3
  have h4 : ((".shredmeta").data.reverse ++ o.data.reverse).getD 9 'a' =
      (('.' :: s.data).reverse ++ t.data.reverse).getD 9 'a' := by rw [h3]
  have hL : ((".shredmeta").data.reverse ++ o.data.reverse).getD 9 'a' = '.' := by
    have h9 : (9 : Nat) < (".shredmeta").data.reverse.length := by decide
    rw [List.getD_append _ _ _ _ h9]
    decide
  have hsl : s.data.reverse.length = 12 := by
    rw [List.length_reverse]
    exact hl
  have hR : (('.' :: s.data).reverse ++ t.data.reverse).getD 9 'a' =
      s.data.reverse.getD 9 'a' := by
    rw [List.reverse_cons, List.append_assoc]
    have h9 : (9 : Nat) < s.data.reverse.length := by rw [hsl]; norm_num
    rw [List.getD_append _ _ _ _ h9]
  have h9 : (9 : Nat) < s.data.reverse.length := by rw [hsl]; norm_num
  have hmem : s.data.reverse.getD 9 'a' ∈ s.data := by
    rw [List.getD_eq_getElem _ _ h9]
    exact List.mem_reverse.mp (List.getElem_mem h9)
  have hdot : ('.' : Char) ∈ charsetChars := by
    have := hc _ hmem
    rw [hR] at h4
    rw [hL] at h4
    rw [← h4] at this
    exact this
  exact absurd hdot (by decide)

theorem savesOf_append (a b : List Ev) : savesOf (a ++ b) = savesOf a ++ savesOf b := by
  simp [savesOf]

theorem tpSeq_shift (env : Env) (c0 : Nat) (t : String) :
    ∀ k, tpSeq env (c0 + 1) (tpSeq env c0 t 1) k = tpSeq env c0 t (k + 1) := by
  intro k
  induction k with
  | zero => rfl
  | succ n ih =>
    show tpSeq env (c0 + 1) (tpSeq env c0 t 1) n ++ "." ++ _ = tpSeq env c0 t (n + 1) ++ "." ++ _
    rw [ih]
    have : c0 + 1 + n = c0 + (n + 1) := by omega
    rw [this]

theorem roundBlock_shift (env : Env) (c0 : Nat) (m : ShredMetadata) (k : Nat) :
    roundBlock env (c0 + 1) { m with TempPath := tpSeq env c0 m.TempPath 1 } k =
      roundBlock env c0 m (k + 1) := by
  simp only [roundBlock, tpSeq_shift]

theorem passBlock_shift (tp : String) (bl : Nat) (m : ShredMetadata) (k : Nat) :
    passBlock tp bl { m with Pass := m.Pass + 1 } k = passBlock tp bl m (k + 1) := by
  have harith : m.Pass + 1 + ((k : Int) + 1) = m.Pass + (((k + 1 : Nat) : Int) + 1) := by
    push_cast
    ring
  simp [passBlock, harith]

theorem passBlocksExt_succ (tp : String) (bl : Nat) (m : ShredMetadata) (n : Nat) :
    passBlocksExt tp bl m (n + 1) =
      passBlock tp bl m 0 ++ passBlocksExt tp bl { m with Pass := m.Pass + 1 } n := by
  simp only [passBlocksExt, List.range_succ_eq_map, List.map_cons, List.flatten_cons,
    List.map_map]
  have hmap : List.map (passBlock tp bl m ∘ Nat.succ) (List.range n)
      = List.map (passBlock tp bl { m with Pass := m.Pass + 1 }) (List.range n) := by
    apply List.map_congr_left
    intro k _
    simp only [Function.comp_apply]
    rw [passBlock_shift]
  rw [hmap]

theorem roundBlocksExt_succ (env : Env) (c0 : Nat) (m : ShredMetadata) (n : Nat) :
    roundBlocksExt env c0 m (n + 1) =
      roundBlock env c0 m 0 ++
        roundBlocksExt env (c0 + 1) { m with TempPath := tpSeq env c0 m.TempPath 1 } n := by
  simp only [roundBlocksExt, List.range_succ_eq_map, List.map_cons, List.flatten_cons,
    List.map_map]
  have hmap : List.map (roundBlock env c0 m ∘ Nat.succ) (List.range n)
      = List.map (roundBlock env (c0 + 1) { m with TempPath := tpSeq env c0 m.TempPath 1 })
          (List.range n) := by
    apply List.map_congr_left
    intro k _
    simp only [Function.comp_apply]
    rw [roundBlock_shift]
  rw [hmap]

theorem isSome_fsGet_fsSet_self (fs : FS) (k : String) (v : Entry) :
    (fsGet (fsSet fs k v) k).isSome = true := by
  rw [fsGet_fsSet_self]
  rfl

theorem isSome_fsGet_fsSet (fs : FS) (k : String) (v : Entry) (p : String)
    (h : (fsGet fs p).isSome = true) : (fsGet (fsSet fs k v) p).isSome = true := by
  by_cases hk : k = p
  · subst hk
    exact isSome_fsGet_fsSet_self fs k v
  · rw [fsGet_fsSet_ne fs k p v hk]
    exact h

theorem isSome_fsGet_saveMetadata_self (fs : FS) (m : ShredMetadata) :
    (fsGet (saveMetadata fs m) (metaStorePath m)).isSome = true := by
  rw [saveMetadata]
  exact isSome_fsGet_fsSet_self _ _ _

theorem isSome_fsGet_saveMetadata (fs : FS) (m : ShredMetadata) (p : String)
    (h : (fsGet fs p).isSome = true) : (fsGet (saveMetadata fs m) p).isSome = true := by
  rw [saveMetadata]
  exact isSome_fsGet_fsSet _ _ _ _ h

theorem overwriteLoop_step (env : Env) (tp : String) (bl : Nat) (m : ShredMetadata)
    (n : Nat) (st : St) (h1 : env.randOk st.randC = true)
    (h2 : env.writeOk st.writeC = true) :
    overwriteLoop env tp bl m (n + 1) st =
      overwriteLoop env tp bl { m with Pass := m.Pass + 1 } n
        (doSave
          { fs := fsSet st.fs tp (.data (max (entrySize ((fsGet st.fs tp).getD (.data 0))) bl)),
            trace := st.trace ++ [.randRead bl, .writeAt tp 0 bl],
            ckpts := st.ckpts,
            randC := st.randC + 1,
            writeC := st.writeC + 1 }
          { m with Pass := m.Pass + 1 }) := by
  simp [overwriteLoop, h1, h2, emit]

theorem renameLoop_step (env : Env) (m : ShredMetadata) (n : Nat) (st : St)
    (h1 : env.randOk st.randC = true) (e : Entry)
    (h2 : fsGet st.fs m.TempPath = some e) :
    renameLoop env m (n + 1) st =
      renameLoop env
        { m with TempPath := m.TempPath ++ "." ++ randomStringBytes (env.randBytes st.randC) 12 }
        n
        (doSave
          { fs := fsSet (fsErase st.fs m.TempPath)
              (m.TempPath ++ "." ++ randomStringBytes (env.randBytes st.randC) 12) e,
            trace := st.trace ++ [.randRead 12,
              .renameEv m.TempPath
                (m.TempPath ++ "." ++ randomStringBytes (env.randBytes st.randC) 12)],
            ckpts := st.ckpts,
            randC := st.randC + 1,
            writeC := st.writeC }
          { m with TempPath :=
              m.TempPath ++ "." ++ randomStringBytes (env.randBytes st.randC) 12 }) := by
  simp [renameLoop, h1, h2, emit]

theorem overwriteLoop_happy (env : Env) (tp : String) (bl : Nat)
    (hr : ∀ k, env.randOk k = true) (hw : ∀ k, env.writeOk k = true) :
    ∀ (fuel : Nat) (m : ShredMetadata) (st : St),
      (overwriteLoop env tp bl m fuel st).1 = .ok { m with Pass := m.Pass + fuel } ∧
      (overwriteLoop env tp bl m fuel st).2.trace = st.trace ++ passBlocksExt tp bl m fuel ∧
      (overwriteLoop env tp bl m fuel st).2.randC = st.randC + fuel ∧
      ((fsGet st.fs tp).isSome = true →
        (fsGet (overwriteLoop env tp bl m fuel st).2.fs tp).isSome = true) ∧
      (fuel ≠ 0 → (fsGet (overwriteLoop env tp bl m fuel st).2.fs tp).isSome = true) := by
  intro fuel
  induction fuel with
  | zero =>
    intro m st
    refine ⟨?_, ?_, ?_, fun h => ?_, fun h => absurd rfl h⟩ <;>
      simp [overwriteLoop, passBlocksExt]
    exact h
  | succ n ih =>
    intro m st
    rw [overwriteLoop_step env tp bl m n st (hr st.randC) (hw st.writeC)]
    obtain ⟨h1, h2, h3, h4, h5⟩ := ih { m with Pass := m.Pass + 1 }
      (doSave
        { fs := fsSet st.fs tp (.data (max (entrySize ((fsGet st.fs tp).getD (.data 0))) bl)),
          trace := st.trace ++ [.randRead bl, .writeAt tp 0 bl],
          ckpts := st.ckpts,
          randC := st.randC + 1,
          writeC := st.writeC + 1 }
        { m with Pass := m.Pass + 1 })
    have hmeq : ({ m with Pass := m.Pass + 1 } : ShredMetadata) =
        { m with Pass := m.Pass + 1 } := rfl
    refine ⟨?_, ?_, ?_, ?_, ?_⟩
    · rw [h1]
      congr 2
      push_cast
      ring
    · rw [h2]
      simp only [doSave, passBlocksExt_succ, passBlock]
      simp [List.append_assoc]
    · rw [h3]
      simp only [doSave]
      omega
    · intro _
      apply h4
      simp only [doSave]
      exact isSome_fsGet_saveMetadata _ _ _ (isSome_fsGet_fsSet_self _ _ _)
    · intro _
      apply h4
      simp only [doSave]
      exact isSome_fsGet_saveMetadata _ _ _ (isSome_fsGet_fsSet_self _ _ _)

theorem renameLoop_happy (env : Env) (hr : ∀ k, env.randOk k = true) :
    ∀ (fuel : Nat) (m : ShredMetadata) (st : St),
      (fsGet st.fs m.TempPath).isSome = true →
      (renameLoop env m fuel st).1 =
        .ok { m with TempPath := tpSeq env st.randC m.TempPath fuel } ∧
      (renameLoop env m fuel st).2.trace = st.trace ++ roundBlocksExt env st.randC m fuel ∧
      (renameLoop env m fuel st).2.randC = st.randC + fuel ∧
      (fsGet (renameLoop env m fuel st).2.fs (tpSeq env st.randC m.TempPath fuel)).isSome
        = true ∧
      (fuel ≠ 0 →
        (fsGet (renameLoop env m fuel st).2.fs (metaStorePath m)).isSome = true) := by
  intro fuel
  induction fuel with
  | zero =>
    intro m st h
    refine ⟨?_, ?_, ?_, ?_, fun hn => absurd rfl hn⟩ <;>
      simp [renameLoop, roundBlocksExt, tpSeq]
    exact h
  | succ n ih =>
    intro m st h
    obtain ⟨e, he⟩ := Option.isSome_iff_exists.mp h
    rw [renameLoop_step env m n st (hr st.randC) e he]
    have hD : (fsGet
        (doSave
          { fs := fsSet (fsErase st.fs m.TempPath)
              (m.TempPath ++ "." ++ randomStringBytes (env.randBytes st.randC) 12) e,
            trace := st.trace ++ [.randRead 12,
              .renameEv m.TempPath
                (m.TempPath ++ "." ++ randomStringBytes (env.randBytes st.randC) 12)],
            ckpts := st.ckpts,
            randC := st.randC + 1,
            writeC := st.writeC }
          { m with TempPath :=
              m.TempPath ++ "." ++ randomStringBytes (env.randBytes st.randC) 12 }).fs
        ({ m with TempPath :=
            m.TempPath ++ "." ++ randomStringBytes (env.randBytes st.randC) 12
           : ShredMetadata }.TempPath)).isSome = true := by
      simp only [doSave]
      exact isSome_fsGet_saveMetadata _ _ _ (isSome_fsGet_fsSet_self _ _ _)
    obtain ⟨h1, h2, h3, h4, h5⟩ := ih
      { m with TempPath :=
          m.TempPath ++ "." ++ randomStringBytes (env.randBytes st.randC) 12 }
      (doSave
        { fs := fsSet (fsErase st.fs m.TempPath)
            (m.TempPath ++ "." ++ randomStringBytes (env.randBytes st.randC) 12) e,
          trace := st.trace ++ [.randRead 12,
            .renameEv m.TempPath
              (m.TempPath ++ "." ++ randomStringBytes (env.randBytes st.randC) 12)],
          ckpts := st.ckpts,
          randC := st.randC + 1,
          writeC := st.writeC }
        { m with TempPath :=
            m.TempPath ++ "." ++ randomStringBytes (env.randBytes st.randC) 12 })
      hD
    have htp1 : (m.TempPath ++ "." ++ randomStringBytes (env.randBytes st.randC) 12)
        = tpSeq env st.randC m.TempPath 1 := rfl
    refine ⟨?_, ?_, ?_, ?_, ?_⟩
    · rw [h1]
      simp only [doSave]
      congr 1
      simp only [htp1]
      rw [tpSeq_shift]
    · rw [h2]
      simp only [doSave]
      rw [roundBlocksExt_succ]
      simp only [roundBlock, tpSeq, htp1]
      simp [List.append_assoc, tpSeq]
    · rw [h3]
      simp only [doSave]
      omega
    · have h4b := h4
      simp only [doSave] at h4b ⊢
      simp only [htp1] at h4b
      rw [tpSeq_shift] at h4b
      exact h4b
    · intro _
      rcases n with _ | k
      · simp only [renameLoop, doSave]
        exact isSome_fsGet_saveMetadata_self _ _
      · have h5b := h5 (Nat.succ_ne_zero k)
        exact h5b

theorem range_map_shift (p : Int) (j : Nat) :
    (List.range (j + 1)).map (fun (k : Nat) => p + ((k : Int) + 1)) =
      (p + 1) :: (List.range j).map (fun (k : Nat) => (p + 1) + ((k : Int) + 1)) := by
  rw [List.range_succ_eq_map, List.map_cons, List.map_map]
  simp only [Nat.cast_zero, zero_add, List.cons.injEq]
  refine ⟨by ring_nf, ?_⟩
  apply List.map_congr_left
  intro k _
  simp only [Function.comp_apply]
  push_cast
  ring

theorem overwriteLoop_spec (env : Env) (tp : String) (bl : Nat) :
    ∀ (fuel : Nat) (m : ShredMetadata) (st : St), ∃ j ext,
      j ≤ fuel ∧
      (overwriteLoop env tp bl m fuel st).2.trace = st.trace ++ ext ∧
      savesOf ext = (List.range j).map (fun (k : Nat) => m.Pass + ((k : Int) + 1)) ∧
      (∀ ev ∈ ext, isLockCheckEv ev = false ∧ isRemoveEv ev = false) ∧
      (∀ m2, (overwriteLoop env tp bl m fuel st).1 = .ok m2 →
        m2 = { m with Pass := m.Pass + fuel } ∧ j = fuel) ∧
      (∀ e, (overwriteLoop env tp bl m fuel st).1 = .error e →
        e = .randErr ∨ e = .writeErr) ∧
      ((fsGet st.fs (metaStorePath m)).isSome = true →
        (fsGet (overwriteLoop env tp bl m fuel st).2.fs (metaStorePath m)).isSome = true) ∧
      (j ≠ 0 →
        (fsGet (overwriteLoop env tp bl m fuel st).2.fs (metaStorePath m)).isSome = true) := by
  intro fuel
  induction fuel with
  | zero =>
    intro m st
    refine ⟨0, [], Nat.le_refl 0, by simp [overwriteLoop], by simp [savesOf], by simp,
      fun m2 hm2 => ?_, fun e he => by simp [overwriteLoop] at he,
      fun h => by simpa [overwriteLoop] using h, fun h => absurd rfl h⟩
    simp only [overwriteLoop] at hm2
    cases hm2
    exact ⟨by simp, rfl⟩
  | succ n ih =>
    intro m st
    by_cases hr0 : env.randOk st.randC = true
    · by_cases hw0 : env.writeOk st.writeC = true
      · rw [overwriteLoop_step env tp bl m n st hr0 hw0]
        obtain ⟨j, ext, hj, htr, hsv, hev, hok, herr, hpres, hjne⟩ := ih
          { m with Pass := m.Pass + 1 }
          (doSave
            { fs := fsSet st.fs tp
                (.data (max (entrySize ((fsGet st.fs tp).getD (.data 0))) bl)),
              trace := st.trace ++ [.randRead bl, .writeAt tp 0 bl],
              ckpts := st.ckpts,
              randC := st.randC + 1,
              writeC := st.writeC + 1 }
            { m with Pass := m.Pass + 1 })
        refine ⟨j + 1,
          [.randRead bl, .writeAt tp 0 bl, .saveMeta { m with Pass := m.Pass + 1 }] ++ ext,
          by omega, ?_, ?_, ?_, ?_, ?_, ?_, ?_⟩
        · rw [htr]
          simp [doSave, List.append_assoc]
        · rw [savesOf_append, hsv, range_map_shift]
          simp [savesOf]
        · intro ev hev2
          rcases List.mem_append.mp hev2 with h | h
          · fin_cases h <;> exact ⟨rfl, rfl⟩
          · exact hev ev h
        · intro m2 hm2
          obtain ⟨hm2a, hm2b⟩ := hok m2 hm2
          refine ⟨?_, by omega⟩
          rw [hm2a]
          have harith : m.Pass + 1 + (n : Int) = m.Pass + ((n : Int) + 1) := by ring
          simp only [harith]
          congr 1
        · exact herr
        · intro h
          apply hpres
          simp only [doSave]
          exact isSome_fsGet_saveMetadata_self _ _
        · intro _
          apply hpres
          simp only [doSave]
          exact isSome_fsGet_saveMetadata_self _ _
      · have hw0f : env.writeOk st.writeC = false := by
          cases hb : env.writeOk st.writeC
          · rfl
          · exact absurd hb hw0
        refine ⟨0, [.randRead bl], Nat.zero_le _, ?_, by simp [savesOf], ?_,
          fun m2 hm2 => ?_, fun e he => ?_, fun h => ?_, fun h => absurd rfl h⟩
        · simp [overwriteLoop, hr0, hw0f, emit]
        · intro ev hev2
          simp only [List.mem_singleton] at hev2
          subst hev2
          exact ⟨rfl, rfl⟩
        · simp [overwriteLoop, hr0, hw0f, emit] at hm2
        · have he2 : ShredError.writeErr = e := by
            simpa [overwriteLoop, hr0, hw0f, emit] using he
          exact Or.inr he2.symm
        · simpa [overwriteLoop, hr0, hw0f, emit] using h
    · have hr0f : env.randOk st.randC = false := by
        cases hb : env.randOk st.randC
        · rfl
        · exact absurd hb hr0
      refine ⟨0, [], Nat.zero_le _, ?_, by simp [savesOf], by simp,
        fun m2 hm2 => ?_, fun e he => ?_, fun h => ?_, fun h => absurd rfl h⟩
      · simp [overwriteLoop, hr0f]
      · simp [overwriteLoop, hr0f] at hm2
      · have he2 : ShredError.randErr = e := by
          simpa [overwriteLoop, hr0f] using he
        exact Or.inl he2.symm
      · simpa [overwriteLoop, hr0f] using h

theorem renameLoop_spec (env : Env) :
    ∀ (fuel : Nat) (m : ShredMetadata) (st : St), ∃ j ext,
      j ≤ fuel ∧
      (renameLoop env m fuel st).2.trace = st.trace ++ ext ∧
      savesOf ext = List.replicate j m.Pass ∧
      (∀ ev ∈ ext, isLockCheckEv ev = false ∧ isRemoveEv ev = false) ∧
      (∀ m2, (renameLoop env m fuel st).1 = .ok m2 →
        m2.Pass = m.Pass ∧ m2.OriginalPath = m.OriginalPath ∧ j = fuel ∧
        (fuel ≠ 0 →
          (fsGet (renameLoop env m fuel st).2.fs (metaStorePath m)).isSome = true ∧
          (fsGet (renameLoop env m fuel st).2.fs m2.TempPath).isSome = true ∧
          ∃ t s, m2.TempPath = t ++ "." ++ s ∧ s.length = 12 ∧
            ∀ c ∈ s.data, c ∈ charsetChars)) ∧
      (∀ e, (renameLoop env m fuel st).1 = .error e → e = .randErr ∨ e = .renameErr) ∧
      ((fsGet st.fs (metaStorePath m)).isSome = true →
        (fsGet (renameLoop env m fuel st).2.fs (metaStorePath m)).isSome = true) ∧
      (j ≠ 0 →
        (fsGet (renameLoop env m fuel st).2.fs (metaStorePath m)).isSome = true) := by
  intro fuel
  induction fuel with
  | zero =>
    intro m st
    refine ⟨0, [], Nat.le_refl 0, by simp [renameLoop], by simp [savesOf], by simp,
      fun m2 hm2 => ?_, fun e he => by simp [renameLoop] at he,
      fun h => by simpa [renameLoop] using h, fun h => absurd rfl h⟩
    simp only [renameLoop] at hm2
    cases hm2
    exact ⟨rfl, rfl, rfl, fun hn => absurd rfl hn⟩
  | succ n ih =>
    intro m st
    by_cases hr0 : env.randOk st.randC = true
    · cases hsrc : fsGet st.fs m.TempPath with
      | none =>
        refine ⟨0, [.randRead 12], Nat.zero_le _, ?_, by simp [savesOf], ?_,
          fun m2 hm2 => ?_, fun e he => ?_, fun h => ?_, fun h => absurd rfl h⟩
        · simp [renameLoop, hr0, hsrc, emit]
        · intro ev hev2
          simp only [List.mem_singleton] at hev2
          subst hev2
          exact ⟨rfl, rfl⟩
        · simp [renameLoop, hr0, hsrc, emit] at hm2
        · have he2 : ShredError.renameErr = e := by
            simpa [renameLoop, hr0, hsrc, emit] using he
          exact Or.inr he2.symm
        · simpa [renameLoop, hr0, hsrc, emit] using h
      | some e =>
        rw [renameLoop_step env m n st hr0 e hsrc]
        obtain ⟨j, ext, hj, htr, hsv, hev, hok, herr, hpres, hjne⟩ := ih
          { m with TempPath :=
              m.TempPath ++ "." ++ randomStringBytes (env.randBytes st.randC) 12 }
          (doSave
            { fs := fsSet (fsErase st.fs m.TempPath)
                (m.TempPath ++ "." ++ randomStringBytes (env.randBytes st.randC) 12) e,
              trace := st.trace ++ [.randRead 12,
                .renameEv m.TempPath
                  (m.TempPath ++ "." ++ randomStringBytes (env.randBytes st.randC) 12)],
              ckpts := st.ckpts,
              randC := st.randC + 1,
              writeC := st.writeC }
            { m with TempPath :=
                m.TempPath ++ "." ++ randomStringBytes (env.randBytes st.randC) 12 })
        refine ⟨j + 1,
          [.randRead 12,
           .renameEv m.TempPath
             (m.TempPath ++ "." ++ randomStringBytes (env.randBytes st.randC) 12),
           .saveMeta { m with TempPath :=
             m.TempPath ++ "." ++ randomStringBytes (env.randBytes st.randC) 12 }] ++ ext,
          by omega, ?_, ?_, ?_, ?_, ?_, ?_, ?_⟩
        · rw [htr]
          simp [doSave, List.append_assoc]
        · rw [savesOf_append, hsv]
          simp [savesOf, List.replicate_succ]
        · intro ev hev2
          rcases List.mem_append.mp hev2 with h | h
          · fin_cases h <;> exact ⟨rfl, rfl⟩
          · exact hev ev h
        · intro m2 hm2
          obtain ⟨hp, ho, hjf, hfacts⟩ := hok m2 hm2
          refine ⟨hp, ho, by omega, fun _ => ?_⟩
          rcases Nat.eq_zero_or_pos n with hn0 | hnpos
          · subst hn0
            have hm2e : ({ m with TempPath :=
                m.TempPath ++ "." ++ randomStringBytes (env.randBytes st.randC) 12
                : ShredMetadata }) = m2 := by
              simpa [renameLoop] using hm2
            refine ⟨?_, ?_, ?_⟩
            · simp only [renameLoop, doSave]
              exact isSome_fsGet_saveMetadata_self _ _
            · rw [← hm2e]
              simp only [renameLoop, doSave]
              exact isSome_fsGet_saveMetadata _ _ _ (isSome_fsGet_fsSet_self _ _ _)
            · rw [← hm2e]
              exact ⟨m.TempPath, randomStringBytes (env.randBytes st.randC) 12, rfl,
                randomStringBytes_length _ _, randomStringBytes_chars _ _⟩
          · obtain ⟨hf1, hf2, hf3⟩ := hfacts (by omega)
            exact ⟨hf1, hf2, hf3⟩
        · exact herr
        · intro _
          apply hpres
          simp only [doSave]
          exact isSome_fsGet_saveMetadata_self _ _
        · intro _
          apply hpres
          simp only [doSave]
          exact isSome_fsGet_saveMetadata_self _ _
    · have hr0f : env.randOk st.randC = false := by
        cases hb : env.randOk st.randC
        · rfl
        · exact absurd hb hr0
      refine ⟨0, [], Nat.zero_le _, ?_, by simp [savesOf], by simp,
        fun m2 hm2 => ?_, fun e he => ?_, fun h => ?_, fun h => absurd rfl h⟩
      · simp [renameLoop, hr0f]
      · simp [renameLoop, hr0f] at hm2
      · have he2 : ShredError.randErr = e := by
          simpa [renameLoop, hr0f] using he
        exact Or.inl he2.symm
      · simpa [renameLoop, hr0f] using h

theorem tpSeq_succ (env : Env) (c0 : Nat) (t : String) (k : Nat) :
    tpSeq env c0 t (k + 1) =
      tpSeq env c0 t k ++ "." ++ randomStringBytes (env.randBytes (c0 + k)) 12 := rfl

theorem cleanupPhase_spec (env : Env) (m : ShredMetadata) (st : St) (mp tp : String)
    (hmpEq : metaStorePath m = mp) (htpEq : m.TempPath = tp)
    (hmp : (fsGet st.fs mp).isSome = true)
    (hne : tp ≠ mp) :
    ∃ ext,
      (cleanupPhase env m st).2.trace = st.trace ++ ext ∧
      savesOf ext = [] ∧
      (∀ ev ∈ ext, isLockCheckEv ev = false) ∧
      (∀ e, (cleanupPhase env m st).1 = .error e → e = .removeErr) ∧
      ((fsGet (cleanupPhase env m st).2.fs mp).isSome = true ∨ Ev.removeEv mp ∈ ext) ∧
      (Ev.removeEv mp ∈ ext → Ev.truncateEv tp ∈ ext) ∧
      (env.removeOk mp = true → env.removeOk tp = true →
        (cleanupPhase env m st).1 = .ok () ∧
        ext = [.truncateEv tp, .removeEv mp, .removeEv tp] ∧
        (cleanupPhase env m st).2.fs = fsErase (fsErase (fsSet st.fs tp (.data 0)) mp) tp) := by
  subst hmpEq
  subst htpEq
  obtain ⟨x, hx⟩ := Option.isSome_iff_exists.mp hmp
  have h1 : fsGet (fsSet st.fs m.TempPath (.data 0)) (metaStorePath m) = some x := by
    rw [fsGet_fsSet_ne _ _ _ _ hne]
    exact hx
  by_cases hro1 : env.removeOk (metaStorePath m) = true
  · have h2 : fsGet (fsErase (fsSet st.fs m.TempPath (.data 0)) (metaStorePath m))
        m.TempPath = some (.data 0) := by
      rw [fsGet_fsErase_ne _ _ _ (Ne.symm hne), fsGet_fsSet_self]
    by_cases hro2 : env.removeOk m.TempPath = true
    · have hresA : (cleanupPhase env m st).1 = .ok () := by
        simp [cleanupPhase, emit, h1, h2, hro1, hro2]
      have hresT : (cleanupPhase env m st).2.trace = st.trace ++
          [.truncateEv m.TempPath, .removeEv (metaStorePath m), .removeEv m.TempPath] := by
        simp [cleanupPhase, emit, h1, h2, hro1, hro2, List.append_assoc]
      have hresF : (cleanupPhase env m st).2.fs =
          fsErase (fsErase (fsSet st.fs m.TempPath (.data 0)) (metaStorePath m))
            m.TempPath := by
        simp [cleanupPhase, emit, h1, h2, hro1, hro2]
      refine ⟨[.truncateEv m.TempPath, .removeEv (metaStorePath m), .removeEv m.TempPath],
        hresT, by simp [savesOf], ?_, ?_, Or.inr (by simp), fun _ => by simp,
        fun _ _ => ⟨hresA, rfl, hresF⟩⟩
      · intro ev hev
        fin_cases hev <;> rfl
      · intro e he
        rw [hresA] at he
        simp at he
    · have hro2f : env.removeOk m.TempPath = false := by
        cases hb : env.removeOk m.TempPath
        · rfl
        · exact absurd hb hro2
      have hresA : (cleanupPhase env m st).1 = .error .removeErr := by
        simp [cleanupPhase, emit, h1, h2, hro1, hro2f]
      have hresT : (cleanupPhase env m st).2.trace = st.trace ++
          [.truncateEv m.TempPath, .removeEv (metaStorePath m)] := by
        simp [cleanupPhase, emit, h1, h2, hro1, hro2f, List.append_assoc]
      refine ⟨[.truncateEv m.TempPath, .removeEv (metaStorePath m)],
        hresT, by simp [savesOf], ?_, ?_, Or.inr (by simp), fun _ => by simp,
        fun _ hh => absurd hh (by simp [hro2f])⟩
      · intro ev hev
        fin_cases hev <;> rfl
      · intro e he
        rw [hresA] at he
        injection he with h
        exact h.symm
  · have hro1f : env.removeOk (metaStorePath m) = false := by
      cases hb : env.removeOk (metaStorePath m)
      · rfl
      · exact absurd hb hro1
    have hresA : (cleanupPhase env m st).1 = .error .removeErr := by
      simp [cleanupPhase, emit, h1, hro1f]
    have hresT : (cleanupPhase env m st).2.trace = st.trace ++ [.truncateEv m.TempPath] := by
      simp [cleanupPhase, emit, h1, hro1f]
    have hpres : (fsGet (cleanupPhase env m st).2.fs (metaStorePath m)).isSome = true := by
      simp [cleanupPhase, emit, h1, hro1f]
    refine ⟨[.truncateEv m.TempPath], hresT, by simp [savesOf], ?_, ?_, Or.inl hpres,
      fun hmem => by simp at hmem, fun hh _ => absurd hh (by simp [hro1f])⟩
    · intro ev hev
      simp only [List.mem_singleton] at hev
      subst hev
      rfl
    · intro e he
      rw [hresA] at he
      injection he with h
      exact h.symm

theorem cleanupPhase_trace_ext (env : Env) (m : ShredMetadata) (st : St) :
    ∃ ext, (cleanupPhase env m st).2.trace = st.trace ++ ext := by
  cases h1 : fsGet (fsSet st.fs m.TempPath (.data 0)) (metaStorePath m) with
  | none => exact ⟨[.truncateEv m.TempPath], by simp [cleanupPhase, emit, h1]⟩
  | some x =>
    by_cases hro1 : env.removeOk (metaStorePath m) = true
    · cases h2 : fsGet (fsErase (fsSet st.fs m.TempPath (.data 0)) (metaStorePath m))
          m.TempPath with
      | none =>
        exact ⟨[.truncateEv m.TempPath, .removeEv (metaStorePath m)],
          by simp [cleanupPhase, emit, h1, hro1, h2, List.append_assoc]⟩
      | some y =>
        by_cases hro2 : env.removeOk m.TempPath = true
        · exact ⟨[.truncateEv m.TempPath, .removeEv (metaStorePath m),
              .removeEv m.TempPath],
            by simp [cleanupPhase, emit, h1, hro1, h2, hro2, List.append_assoc]⟩
        · have hro2f : env.removeOk m.TempPath = false := by
            cases hb : env.removeOk m.TempPath
            · rfl
            · exact absurd hb hro2
          exact ⟨[.truncateEv m.TempPath, .removeEv (metaStorePath m)],
            by simp [cleanupPhase, emit, h1, hro1, h2, hro2f, List.append_assoc]⟩
    · have hro1f : env.removeOk (metaStorePath m) = false := by
        cases hb : env.removeOk (metaStorePath m)
        · rfl
        · exact absurd hb hro1
      exact ⟨[.truncateEv m.TempPath], by simp [cleanupPhase, emit, h1, hro1f]⟩

theorem shredMain_eval_ok (env : Env) (size : Nat) (passes : Int)
    (m1 m2 m3 : ShredMetadata) (st1 st3 st4 st5 : St) (r5 : Except ShredError Unit)
    (htp : (fsGet st1.fs m1.TempPath).isSome = true)
    (hlk : isFileLocked (fsGet st1.fs m1.TempPath).isSome env.tempLocked = false)
    (hOV : overwriteLoop env m1.TempPath size m1 (passes - m1.Pass).toNat
        (emit st1 (.lockCheck m1.TempPath false)) = (.ok m2, st3))
    (hRN : renameLoop env m2 10 st3 = (.ok m3, st4))
    (hCL : cleanupPhase env m3 st4 = (r5, st5)) :
    shredMain env size passes m1 st1 = outOf r5 st5 := by
  rw [htp] at hlk
  simp [shredMain, htp, hlk, hOV, hRN, hCL]

theorem shredMain_eval_busy (env : Env) (size : Nat) (passes : Int)
    (m1 : ShredMetadata) (st1 : St)
    (hlk : isFileLocked (fsGet st1.fs m1.TempPath).isSome env.tempLocked = true) :
    shredMain env size passes m1 st1 =
      outOf (.error .busy) (emit st1 (.lockCheck m1.TempPath true)) := by
  simp [shredMain, hlk]

theorem shredMain_eval_noopen (env : Env) (size : Nat) (passes : Int)
    (m1 : ShredMetadata) (st1 : St)
    (hopen : (fsGet st1.fs m1.TempPath).isSome = false) :
    shredMain env size passes m1 st1 =
      outOf (.error .openErr) (emit st1 (.lockCheck m1.TempPath false)) := by
  simp [shredMain, hopen, isFileLocked]

theorem shredMain_eval_ovErr (env : Env) (size : Nat) (passes : Int)
    (m1 : ShredMetadata) (st1 : St) (e : ShredError) (st3 : St)
    (htp : (fsGet st1.fs m1.TempPath).isSome = true)
    (hlk : isFileLocked (fsGet st1.fs m1.TempPath).isSome env.tempLocked = false)
    (hOV : overwriteLoop env m1.TempPath size m1 (passes - m1.Pass).toNat
        (emit st1 (.lockCheck m1.TempPath false)) = (.error e, st3)) :
    shredMain env size passes m1 st1 = outOf (.error e) st3 := by
  rw [htp] at hlk
  simp [shredMain, htp, hlk, hOV]

theorem shredMain_eval_rnErr (env : Env) (size : Nat) (passes : Int)
    (m1 m2 : ShredMetadata) (st1 st3 : St) (e : ShredError) (st4 : St)
    (htp : (fsGet st1.fs m1.TempPath).isSome = true)
    (hlk : isFileLocked (fsGet st1.fs m1.TempPath).isSome env.tempLocked = false)
    (hOV : overwriteLoop env m1.TempPath size m1 (passes - m1.Pass).toNat
        (emit st1 (.lockCheck m1.TempPath false)) = (.ok m2, st3))
    (hRN : renameLoop env m2 10 st3 = (.error e, st4)) :
    shredMain env size passes m1 st1 = outOf (.error e) st4 := by
  rw [htp] at hlk
  simp [shredMain, htp, hlk, hOV, hRN]

set_option maxHeartbeats 1600000 in
theorem shredMain_happy (env : Env) (size : Nat) (passes : Int) (m1 : ShredMetadata)
    (st1 : St) (hr : ∀ k, env.randOk k = true) (hw : ∀ k, env.writeOk k = true)
    (hrm : ∀ p, env.removeOk p = true) (hnl : env.tempLocked = false)
    (htp : (fsGet st1.fs m1.TempPath).isSome = true) :
    (shredMain env size passes m1 st1).result = .ok () ∧
    (shredMain env size passes m1 st1).trace =
      st1.trace ++ [.lockCheck m1.TempPath false]
        ++ passBlocksExt m1.TempPath size m1 (passes - m1.Pass).toNat
        ++ roundBlocksExt env (st1.randC + (passes - m1.Pass).toNat)
             { m1 with Pass := m1.Pass + (((passes - m1.Pass).toNat : Nat) : Int) } 10
        ++ [.truncateEv (tpSeq env (st1.randC + (passes - m1.Pass).toNat) m1.TempPath 10),
            .removeEv (metaStorePath m1),
            .removeEv (tpSeq env (st1.randC + (passes - m1.Pass).toNat) m1.TempPath 10)] := by
  have hlk : isFileLocked (fsGet st1.fs m1.TempPath).isSome env.tempLocked = false := by
    rw [htp, hnl]
    rfl
  have hst2tr : (emit st1 (.lockCheck m1.TempPath false)).trace
      = st1.trace ++ [.lockCheck m1.TempPath false] := rfl
  have hst2fs : (emit st1 (.lockCheck m1.TempPath false)).fs = st1.fs := rfl
  have hst2rc : (emit st1 (.lockCheck m1.TempPath false)).randC = st1.randC := rfl
  obtain ⟨hov1, hov2, hov3, hov4, hov5⟩ :=
    overwriteLoop_happy env m1.TempPath size hr hw (passes - m1.Pass).toNat m1
      (emit st1 (.lockCheck m1.TempPath false))
  rcases hOV : overwriteLoop env m1.TempPath size m1 (passes - m1.Pass).toNat
      (emit st1 (.lockCheck m1.TempPath false)) with ⟨r3, st3⟩
  rw [hOV] at hov1 hov2 hov3 hov4 hov5
  simp only at hov1 hov2 hov3 hov4 hov5
  subst hov1
  have htp3 : (fsGet st3.fs m1.TempPath).isSome = true := by
    rcases Nat.eq_zero_or_pos (passes - m1.Pass).toNat with h0 | hpos
    · rw [h0] at hOV
      simp only [overwriteLoop] at hOV
      have hst : (emit st1 (.lockCheck m1.TempPath false)) = st3 := congrArg Prod.snd hOV
      rw [← hst]
      exact htp
    · exact hov5 (by omega)
  obtain ⟨hrn1, hrn2, hrn3, hrn4, hrn5⟩ :=
    renameLoop_happy env hr 10 { m1 with Pass := m1.Pass + ((passes - m1.Pass).toNat : Int) }
      st3 htp3
  rcases hRN : renameLoop env
      { m1 with Pass := m1.Pass + ((passes - m1.Pass).toNat : Int) } 10 st3 with ⟨r4, st4⟩
  rw [hRN] at hrn1 hrn2 hrn3 hrn4 hrn5
  simp only at hrn1 hrn2 hrn3 hrn4 hrn5
  subst hrn1
  have hrc3 : st3.randC = st1.randC + (passes - m1.Pass).toNat := by
    rw [hov3]
    rfl
  have hsuffixlen : (randomStringBytes
      (env.randBytes (st3.randC + 9)) 12).length = 12 := randomStringBytes_length _ _
  have hsuffixchars := randomStringBytes_chars (env.randBytes (st3.randC + 9)) 12
  have hne : (tpSeq env st3.randC m1.TempPath 10 : String) ≠
      m1.OriginalPath ++ ".shredmeta" := by
    rw [tpSeq_succ env st3.randC m1.TempPath 9]
    exact (metaPath_ne_dotSuffix _ _ _ hsuffixlen hsuffixchars).symm
  simp only [metaStorePath] at hrn5
  have hmp4 : (fsGet st4.fs (m1.OriginalPath ++ ".shredmeta")).isSome = true :=
    hrn5 (by norm_num)
  obtain ⟨extC, hclT, hclS, hclL, hclE, hclP, hclM, hclH⟩ := cleanupPhase_spec env
    ⟨m1.Pass + ((passes - m1.Pass).toNat : Int),
      tpSeq env st3.randC m1.TempPath 10, m1.OriginalPath⟩
    st4 (m1.OriginalPath ++ ".shredmeta") (tpSeq env st3.randC m1.TempPath 10)
    rfl rfl hmp4 hne
  obtain ⟨hcl1, hclext, hcl3⟩ := hclH (hrm _) (hrm _)
  subst hclext
  rcases hCL : cleanupPhase env
    ⟨m1.Pass + ((passes - m1.Pass).toNat : Int),
      tpSeq env st3.randC m1.TempPath 10, m1.OriginalPath⟩ st4 with ⟨r5, st5⟩
  rw [hCL] at hcl1 hclT
  simp only at hcl1 hclT
  have heval := shredMain_eval_ok env size passes m1 _ _ st1 st3 st4 st5 r5 htp hlk
    hOV hRN hCL
  rw [heval]
  refine ⟨hcl1, ?_⟩
  show st5.trace = _
  rw [hclT, hrn2, hov2, hst2tr, hrc3]
  simp [metaStorePath, List.append_assoc]

theorem shredMain_spec (env : Env) (size : Nat) (passes : Int)
    (m1 : ShredMetadata) (st1 : St) : ∃ j j2 ext,
    j ≤ (passes - m1.Pass).toNat ∧ j2 ≤ 10 ∧
    (shredMain env size passes m1 st1).trace =
      st1.trace ++ [.lockCheck m1.TempPath
        (isFileLocked (fsGet st1.fs m1.TempPath).isSome env.tempLocked)] ++ ext ∧
    (∀ ev ∈ ext, isLockCheckEv ev = false) ∧
    (isFileLocked (fsGet st1.fs m1.TempPath).isSome env.tempLocked = true →
      (shredMain env size passes m1 st1).result = .error .busy ∧ ext = []) ∧
    savesOf ext = ((List.range j).map (fun (k : Nat) => m1.Pass + ((k : Int) + 1)))
      ++ List.replicate j2 (m1.Pass + (((passes - m1.Pass).toNat : Nat) : Int)) ∧
    (j2 ≠ 0 → j = (passes - m1.Pass).toNat) ∧
    (∀ e, (shredMain env size passes m1 st1).result = .error e →
      e ≠ .sizeExceeded ∧ e ≠ .notFound) ∧
    (∀ e, (shredMain env size passes m1 st1).result = .error e →
      ((fsGet st1.fs (metaStorePath m1)).isSome = true ∨ j ≠ 0 ∨ j2 ≠ 0) →
      ((fsGet (shredMain env size passes m1 st1).fs (metaStorePath m1)).isSome = true ∨
        Ev.removeEv (metaStorePath m1) ∈ ext)) ∧
    (Ev.removeEv (metaStorePath m1) ∈ ext →
      ((shredMain env size passes m1 st1).result = .ok () ∨
        (shredMain env size passes m1 st1).result = .error .removeErr) ∧
      ∃ t, Ev.truncateEv t ∈ ext) ∧
    ((shredMain env size passes m1 st1).result = .error .busy →
      isFileLocked (fsGet st1.fs m1.TempPath).isSome env.tempLocked = true) := by
  by_cases hlkb : isFileLocked (fsGet st1.fs m1.TempPath).isSome env.tempLocked = true
  · refine ⟨0, 0, [], Nat.zero_le _, Nat.zero_le _, ?_, by simp, fun _ => ?_,
      by simp [savesOf], fun h => absurd rfl h, fun e he => ?_, fun e he hd => ?_,
      fun hmem => by simp at hmem, fun _ => hlkb⟩
    · rw [shredMain_eval_busy env size passes m1 st1 hlkb, hlkb]
      simp [outOf, emit]
    · rw [shredMain_eval_busy env size passes m1 st1 hlkb]
      exact ⟨rfl, rfl⟩
    · rw [shredMain_eval_busy env size passes m1 st1 hlkb] at he
      simp only [outOf] at he
      cases he
      exact ⟨by simp, by simp⟩
    · rw [shredMain_eval_busy env size passes m1 st1 hlkb]
      simp only [outOf, emit]
      rcases hd with hd | hd | hd
      · exact Or.inl hd
      · exact absurd rfl hd
      · exact absurd rfl hd
  · have hlkf : isFileLocked (fsGet st1.fs m1.TempPath).isSome env.tempLocked = false := by
      cases hb : isFileLocked (fsGet st1.fs m1.TempPath).isSome env.tempLocked
      · rfl
      · exact absurd hb hlkb
    cases hopen : (fsGet st1.fs m1.TempPath).isSome with
    | false =>
      refine ⟨0, 0, [], Nat.zero_le _, Nat.zero_le _, ?_,
        by simp, fun h => by simp [isFileLocked] at h, by simp [savesOf],
        fun h => absurd rfl h, fun e he => ?_, fun e he hd => ?_,
        fun hmem => by simp at hmem, fun he => ?_⟩
      · rw [shredMain_eval_noopen env size passes m1 st1 hopen]
        simp [outOf, emit, isFileLocked]
      · rw [shredMain_eval_noopen env size passes m1 st1 hopen] at he
        simp only [outOf] at he
        cases he
        exact ⟨by simp, by simp⟩
      · rw [shredMain_eval_noopen env size passes m1 st1 hopen]
        simp only [outOf, emit]
        rcases hd with hd | hd | hd
        · exact Or.inl hd
        · exact absurd rfl hd
        · exact absurd rfl hd
      · rw [shredMain_eval_noopen env size passes m1 st1 hopen] at he
        simp [outOf] at he
    | true =>
      have hlkt : isFileLocked true env.tempLocked = false := by
        have h2 := hlkf
        rw [hopen] at h2
        exact h2
      obtain ⟨j, ext1, hj, htr1, hsv1, hev1, hok1, herr1, hpres1, hjne1⟩ :=
        overwriteLoop_spec env m1.TempPath size (passes - m1.Pass).toNat m1
          (emit st1 (.lockCheck m1.TempPath false))
      rcases hOV : overwriteLoop env m1.TempPath size m1 (passes - m1.Pass).toNat
          (emit st1 (.lockCheck m1.TempPath false)) with ⟨r3, st3⟩
      rw [hOV] at htr1 hok1 herr1 hpres1 hjne1
      simp only at htr1 hok1 herr1 hpres1 hjne1
      cases r3 with
      | error e3 =>
        refine ⟨j, 0, ext1, hj, Nat.zero_le _, ?_, fun ev hev => (hev1 ev hev).1,
          fun h => by simp [hlkt] at h, ?_, fun h => absurd rfl h, fun e he => ?_,
          fun e he hd => ?_, fun hmem => ?_, fun he => ?_⟩
        · rw [shredMain_eval_ovErr env size passes m1 st1 e3 st3 hopen hlkf hOV, hlkt]
          simp only [outOf]
          rw [htr1]
          simp [emit, List.append_assoc]
        · rw [hsv1]
          simp
        · rw [shredMain_eval_ovErr env size passes m1 st1 e3 st3 hopen hlkf hOV] at he
          simp only [outOf] at he
          cases he
          rcases herr1 e3 rfl with h | h <;> subst h <;> exact ⟨by simp, by simp⟩
        · rw [shredMain_eval_ovErr env size passes m1 st1 e3 st3 hopen hlkf hOV]
          simp only [outOf]
          refine Or.inl ?_
          rcases hd with hd | hd | hd
          · exact hpres1 hd
          · exact hjne1 hd
          · exact absurd rfl hd
        · have h2 := (hev1 _ hmem).2
          simp [isRemoveEv] at h2
        · rw [shredMain_eval_ovErr env size passes m1 st1 e3 st3 hopen hlkf hOV] at he
          simp only [outOf] at he
          rcases herr1 e3 rfl with h | h <;> subst h <;> simp at he
      | ok m2 =>
        obtain ⟨hm2, hjF⟩ := hok1 m2 rfl
        subst hm2
        subst hjF
        obtain ⟨j2, ext2, hj2, htr2, hsv2, hev2, hok2, herr2, hpres2, hjne2⟩ :=
          renameLoop_spec env 10
            { m1 with Pass := m1.Pass + (((passes - m1.Pass).toNat : Nat) : Int) } st3
        rcases hRN : renameLoop env
            { m1 with Pass := m1.Pass + (((passes - m1.Pass).toNat : Nat) : Int) } 10 st3
          with ⟨r4, st4⟩
        rw [hRN] at htr2 hok2 herr2 hpres2 hjne2
        simp only at htr2 hok2 herr2 hpres2 hjne2
        cases r4 with
        | error e4 =>
          refine ⟨(passes - m1.Pass).toNat, j2, ext1 ++ ext2, Nat.le_refl _, hj2, ?_,
            ?_, fun h => by simp [hlkt] at h, ?_, fun hne0 => rfl, fun e he => ?_,
            fun e he hd => ?_, fun hmem => ?_, fun he => ?_⟩
          · rw [shredMain_eval_rnErr env size passes m1 _ st1 st3 e4 st4 hopen hlkf
              hOV hRN, hlkt]
            simp only [outOf]
            rw [htr2, htr1]
            simp [emit, List.append_assoc]
          · intro ev hev
            rcases List.mem_append.mp hev with h | h
            · exact (hev1 ev h).1
            · exact (hev2 ev h).1
          · rw [savesOf_append, hsv1, hsv2]
          · rw [shredMain_eval_rnErr env size passes m1 _ st1 st3 e4 st4 hopen hlkf
              hOV hRN] at he
            simp only [outOf] at he
            cases he
            rcases herr2 e4 rfl with h | h <;> subst h <;> exact ⟨by simp, by simp⟩
          · rw [shredMain_eval_rnErr env size passes m1 _ st1 st3 e4 st4 hopen hlkf
              hOV hRN]
            simp only [outOf]
            refine Or.inl ?_
            rcases Nat.eq_zero_or_pos j2 with hj20 | hj2pos
            · subst hj20
              apply hpres2
              rcases hd with hd | hd | hd
              · exact hpres1 hd
              · exact hjne1 hd
              · exact absurd rfl hd
            · exact hjne2 (by omega)
          · rcases List.mem_append.mp hmem with h | h
            · have h2 := (hev1 _ h).2
              simp [isRemoveEv] at h2
            · have h2 := (hev2 _ h).2
              simp [isRemoveEv] at h2
          · rw [shredMain_eval_rnErr env size passes m1 _ st1 st3 e4 st4 hopen hlkf
              hOV hRN] at he
            simp only [outOf] at he
            rcases herr2 e4 rfl with h | h <;> subst h <;> simp at he
        | ok m3 =>
          obtain ⟨hp3, ho3, hj210, hfacts⟩ := hok2 m3 rfl
          obtain ⟨hf1, hf2, t, s, hshape, hsl, hsc⟩ := hfacts (by norm_num)
          subst hj210
          have hmpEq : metaStorePath m3 = m1.OriginalPath ++ ".shredmeta" := by
            simp [metaStorePath, ho3]
          have hmp : (fsGet st4.fs (m1.OriginalPath ++ ".shredmeta")).isSome = true := hf1
          have hne : m3.TempPath ≠ m1.OriginalPath ++ ".shredmeta" := by
            rw [hshape]
            exact (metaPath_ne_dotSuffix _ _ _ hsl hsc).symm
          obtain ⟨extC, hclT, hclS, hclL, hclE, hclP, hclM, _⟩ := cleanupPhase_spec env
            m3 st4 (m1.OriginalPath ++ ".shredmeta") m3.TempPath hmpEq rfl hmp hne
          rcases hCL : cleanupPhase env m3 st4 with ⟨r5, st5⟩
          rw [hCL] at hclT hclE hclP
          simp only at hclT hclE hclP
          have heval := shredMain_eval_ok env size passes m1 _ m3 st1 st3 st4 st5 r5
            hopen hlkf hOV hRN hCL
          refine ⟨(passes - m1.Pass).toNat, 10, ext1 ++ ext2 ++ extC,
            Nat.le_refl _, by norm_num, ?_, ?_, fun h => by simp [hlkt] at h, ?_,
            fun _ => rfl, fun e he => ?_, fun e he hd => ?_, fun hmem => ?_,
            fun he => ?_⟩
          · rw [heval, hlkt]
            simp only [outOf]
            rw [hclT, htr2, htr1]
            simp [emit, List.append_assoc]
          · intro ev hev
            rcases List.mem_append.mp hev with h | h
            · rcases List.mem_append.mp h with h2 | h2
              · exact (hev1 ev h2).1
              · exact (hev2 ev h2).1
            · exact hclL ev h
          · rw [savesOf_append, savesOf_append, hsv1, hsv2, hclS]
            simp
          · rw [heval] at he
            simp only [outOf] at he
            have hE := hclE e he
            subst hE
            exact ⟨by simp, by simp⟩
          · rw [heval]
            simp only [outOf]
            rcases hclP with hP | hP
            · exact Or.inl hP
            · exact Or.inr (List.mem_append.mpr (Or.inr hP))
          · have hmemC : Ev.removeEv (metaStorePath m1) ∈ extC := by
              rcases List.mem_append.mp hmem with h | h
              · rcases List.mem_append.mp h with h2 | h2
                · have h3 := (hev1 _ h2).2
                  simp [isRemoveEv] at h3
                · have h3 := (hev2 _ h2).2
                  simp [isRemoveEv] at h3
              · exact h
            constructor
            · rw [heval]
              simp only [outOf]
              cases r5 with
              | ok u =>
                cases u
                exact Or.inl rfl
              | error e5 =>
                have hE := hclE e5 rfl
                subst hE
                exact Or.inr rfl
            · exact ⟨m3.TempPath, List.mem_append.mpr (Or.inr (hclM hmemC))⟩
          · rw [heval] at he
            simp only [outOf] at he
            have hE := hclE _ he
            exact absurd hE (by decide)

theorem shredMain_overwrite_prefix (env : Env) (size : Nat) (passes : Int)
    (m1 : ShredMetadata) (st1 : St) (hr : ∀ k, env.randOk k = true)
    (hw : ∀ k, env.writeOk k = true) (hnl : env.tempLocked = false)
    (htp : (fsGet st1.fs m1.TempPath).isSome = true) :
    ∃ rest, (shredMain env size passes m1 st1).trace =
      st1.trace ++ [.lockCheck m1.TempPath false]
        ++ passBlocksExt m1.TempPath size m1 (passes - m1.Pass).toNat ++ rest := by
  have hlk : isFileLocked (fsGet st1.fs m1.TempPath).isSome env.tempLocked = false := by
    rw [htp, hnl]
    rfl
  obtain ⟨hov1, hov2, hov3, hov4, hov5⟩ :=
    overwriteLoop_happy env m1.TempPath size hr hw (passes - m1.Pass).toNat m1
      (emit st1 (.lockCheck m1.TempPath false))
  rcases hOV : overwriteLoop env m1.TempPath size m1 (passes - m1.Pass).toNat
      (emit st1 (.lockCheck m1.TempPath false)) with ⟨r3, st3⟩
  rw [hOV] at hov1 hov2
  simp only at hov1 hov2
  subst hov1
  obtain ⟨j2, ext2, hj2, htr2, hsv2, hev2, hok2, herr2, hpres2, hjne2⟩ :=
    renameLoop_spec env 10
      { m1 with Pass := m1.Pass + ((passes - m1.Pass).toNat : Int) } st3
  rcases hRN : renameLoop env
      { m1 with Pass := m1.Pass + ((passes - m1.Pass).toNat : Int) } 10 st3
    with ⟨r4, st4⟩
  rw [hRN] at htr2
  simp only at htr2
  cases r4 with
  | error e4 =>
    refine ⟨ext2, ?_⟩
    rw [shredMain_eval_rnErr env size passes m1 _ st1 st3 e4 st4 htp hlk hOV hRN]
    show st4.trace = _
    rw [htr2, hov2]
    simp [emit, List.append_assoc]
  | ok m3 =>
    obtain ⟨extC, hclT⟩ := cleanupPhase_trace_ext env m3 st4
    rcases hCL : cleanupPhase env m3 st4 with ⟨r5, st5⟩
    rw [hCL] at hclT
    simp only at hclT
    refine ⟨ext2 ++ extC, ?_⟩
    rw [shredMain_eval_ok env size passes m1 _ m3 st1 st3 st4 st5 r5 htp hlk hOV hRN hCL]
    show st5.trace = _
    rw [hclT, htr2, hov2]
    simp [emit, List.append_assoc]

theorem isFileLocked_true (c : Bool) : isFileLocked true c = c := by
  cases c <;> rfl

theorem string_append_ne (p a b : String) (h : a.data ≠ b.data) : p ++ a ≠ p ++ b := by
  intro he
  apply h
  have h2 := congrArg String.data he
  rw [data_append_str, data_append_str] at h2
  exact List.append_cancel_left h2

theorem Shred_eval_notFound (env : Env) (fs0 : FS) (path : String) (passes : Int)
    (h : fsGet fs0 path = none) :
    Shred env fs0 path passes = ⟨.error .notFound, fs0, [], []⟩ := by
  simp [Shred, h]

theorem Shred_eval_size (env : Env) (fs0 : FS) (path : String) (passes : Int)
    (e0 : Entry) (h : fsGet fs0 path = some e0)
    (hS : entrySize e0 > 1024 * 1024 * 1024) :
    Shred env fs0 path passes = ⟨.error .sizeExceeded, fs0, [], []⟩ := by
  simp [Shred, h, hS]

theorem Shred_eval_fresh (env : Env) (fs0 : FS) (path : String) (passes : Int)
    (e0 : Entry) (h : fsGet fs0 path = some e0)
    (hS : ¬ entrySize e0 > 1024 * 1024 * 1024)
    (hm : ((loadMetadata fs0 path).getD ⟨0, "", path⟩).TempPath = "") :
    Shred env fs0 path passes =
      shredMain env (entrySize e0) passes
        { (loadMetadata fs0 path).getD ⟨0, "", path⟩ with TempPath := path ++ ".tmp" }
        (doSave
          { fs := fsSet (fsErase fs0 path) (path ++ ".tmp") e0,
            trace := [.renameEv path (path ++ ".tmp")],
            ckpts := [], randC := 0, writeC := 0 }
          { (loadMetadata fs0 path).getD ⟨0, "", path⟩ with
              TempPath := path ++ ".tmp" }) := by
  simp [Shred, h, hS, hm, emit]

theorem Shred_eval_resume (env : Env) (fs0 : FS) (path : String) (passes : Int)
    (e0 : Entry) (h : fsGet fs0 path = some e0)
    (hS : ¬ entrySize e0 > 1024 * 1024 * 1024)
    (hm : ((loadMetadata fs0 path).getD ⟨0, "", path⟩).TempPath ≠ "") :
    Shred env fs0 path passes =
      shredMain env (entrySize e0) passes
        ((loadMetadata fs0 path).getD ⟨0, "", path⟩) ⟨fs0, [], [], 0, 0⟩ := by
  simp [Shred, h, hS, hm]

/-- C1: the claim of idempotent resume fails on the code, and the code
contradicts its own resume machinery.  An uninterrupted run of Shred on a
1-byte file f with one pass succeeds and leaves both the file and the
checkpoint absent, and the filesystem captured right after the first
checkpoint write is fsAfterCkpt (file renamed to f.tmp, checkpoint present).
Re-invoking Shred with the same arguments from that state returns the
os.Stat notFound error immediately, because the original path f was renamed
away before the first checkpoint write, and it changes nothing on disk: the
working file f.tmp and the checkpoint f.shredmeta both remain, so the
re-invocation neither resumes nor reaches the terminal outcome of file and
checkpoint both absent. -/
theorem claim_C1_resume_broken :
    (Shred envHappy fsSmall "f" 1).result = .ok () ∧
    (Shred envHappy fsSmall "f" 1).fs = [] ∧
    (Shred envHappy fsSmall "f" 1).ckpts.getD 0 [] = fsAfterCkpt ∧
    (Shred envHappy fsAfterCkpt "f" 1).result = .error .notFound ∧
    (Shred envHappy fsAfterCkpt "f" 1).fs = fsAfterCkpt ∧
    fsGet fsAfterCkpt "f.tmp" = some (.data 1) ∧
    fsGet fsAfterCkpt "f.shredmeta" = some (.meta ⟨0, "f.tmp", "f"⟩) := by
  decide

/-- C7 counterexample: the byte-to-character reduction of randomString is not
uniform.  Both the charset characters a and 9 are in the alphabet, yet 5 of
the 256 byte values map to a while only 4 map to 9, so not every character
has the same number of source byte values. -/
theorem claim_C7_counterexample :
    'a' ∈ charsetChars ∧ '9' ∈ charsetChars ∧
    ((List.range 256).countP (fun b => decide (randChar b = 'a'))) = 5 ∧
    ((List.range 256).countP (fun b => decide (randChar b = '9'))) = 4 := by
  set_option maxRecDepth 8192 in decide

/-- C7 amended: the byte-to-character reduction b mod 62 of randomString maps
5 of the 256 byte values to each of the first 8 charset characters and 4 of
the 256 byte values to each of the remaining 54, a modulo bias of the
256-value byte range over the 62-character alphabet rather than a uniform
distribution. -/
theorem claim_C7_amended :
    ∀ j : Fin 62, ((List.range 256).countP
        (fun b => decide (randChar b = charsetChars.getD j.val 'a'))) =
      if j.val < 8 then 5 else 4 := by
  set_option maxRecDepth 8192 in decide

/-- C8: for a path naming no existing file and with no pre-existing
checkpoint, Shred returns the notFound error of the initial os.Stat at once,
and nothing on disk changes: the filesystem is untouched, no event was
performed, and no checkpoint write took place. -/
theorem claim_C8_notFound (env : Env) (fs0 : FS) (path : String) (passes : Int)
    (hfile : fsGet fs0 path = none)
    (hmeta : fsGet fs0 (path ++ ".shredmeta") = none) :
    (Shred env fs0 path passes).result = .error .notFound ∧
    (Shred env fs0 path passes).fs = fs0 ∧
    (Shred env fs0 path passes).trace = [] ∧
    (Shred env fs0 path passes).ckpts = [] := by
  rw [Shred_eval_notFound env fs0 path passes hfile]
  exact ⟨rfl, rfl, rfl, rfl⟩

theorem claim_C8_notFound_witness :
    (Shred envHappy [] "nonexistentfile" 3).result = .error .notFound ∧
    (Shred envHappy [] "nonexistentfile" 3).fs = [] ∧
    (Shred envHappy [] "nonexistentfile" 3).trace = [] ∧
    (Shred envHappy [] "nonexistentfile" 3).ckpts = [] :=
  claim_C8_notFound envHappy [] "nonexistentfile" 3 (by decide) (by decide)

/-- C9: isFileLocked of shred.go returns false whenever the open-for-writing
of the path fails (missing file or no write permission), regardless of
whether a conflicting lock would have been detected: an unopenable path is
always reported as not busy. -/
theorem claim_C9_unopenable_not_busy :
    ∀ flockConflict : Bool, isFileLocked false flockConflict = false := by
  intro c
  rfl

theorem shredMain_no_sizeExceeded (env : Env) (size : Nat) (passes : Int)
    (m1 : ShredMetadata) (st1 : St) :
    (shredMain env size passes m1 st1).result ≠ .error .sizeExceeded := by
  obtain ⟨j, j2, ext, h1, h2, h3, h4, h5, h6, h7, h8, h9, h10, h11⟩ :=
    shredMain_spec env size passes m1 st1
  intro h
  exact (h8 _ h).1 rfl

/-- C2: for an existing regular file of size S, Shred returns the
sizeExceeded error if and only if S exceeds 1 GiB, and when it does, the
invocation performed no rename, write, delete or checkpoint creation: the
filesystem is returned unchanged and the event trace is empty. -/
theorem claim_C2_size_bound (env : Env) (fs0 : FS) (path : String) (passes : Int)
    (S : Nat) (hfile : fsGet fs0 path = some (.data S)) :
    ((Shred env fs0 path passes).result = .error .sizeExceeded ↔
      S > 1024 * 1024 * 1024) ∧
    (S > 1024 * 1024 * 1024 →
      (Shred env fs0 path passes).fs = fs0 ∧
      (Shred env fs0 path passes).trace = []) := by
  by_cases hS : S > 1024 * 1024 * 1024
  · rw [Shred_eval_size env fs0 path passes _ hfile (by simpa [entrySize] using hS)]
    exact ⟨⟨fun _ => hS, fun _ => rfl⟩, fun _ => ⟨rfl, rfl⟩⟩
  · have hS2 : ¬ entrySize (Entry.data S) > 1024 * 1024 * 1024 := by
      simpa [entrySize] using hS
    refine ⟨⟨fun hres => ?_, fun hgt => absurd hgt hS⟩, fun hgt => absurd hgt hS⟩
    exfalso
    by_cases hm : ((loadMetadata fs0 path).getD ⟨0, "", path⟩).TempPath = ""
    · rw [Shred_eval_fresh env fs0 path passes _ hfile hS2 hm] at hres
      exact shredMain_no_sizeExceeded _ _ _ _ _ hres
    · rw [Shred_eval_resume env fs0 path passes _ hfile hS2 hm] at hres
      exact shredMain_no_sizeExceeded _ _ _ _ _ hres

theorem claim_C2_size_bound_witness :
    (Shred envHappy [("f", Entry.data (1024 * 1024 * 1024 + 1))] "f" 3).result
      = .error .sizeExceeded ∧
    (Shred envHappy [("f", Entry.data (1024 * 1024 * 1024 + 1))] "f" 3).fs
      = [("f", Entry.data (1024 * 1024 * 1024 + 1))] ∧
    (Shred envHappy [("f", Entry.data (1024 * 1024 * 1024 + 1))] "f" 3).trace = [] := by
  have h := claim_C2_size_bound envHappy
    [("f", Entry.data (1024 * 1024 * 1024 + 1))] "f" 3 (1024 * 1024 * 1024 + 1)
    (by decide)
  exact ⟨h.1.mpr (by norm_num), (h.2 (by norm_num)).1, (h.2 (by norm_num)).2⟩

/-- C3 counterexample: on a fresh 1-byte file f with two requested passes and
no contention, Shred performs no contention-guard check at all on the
original path f, and performs exactly one check in total, on the working
path f.tmp, with that single check occurring only after the file was already
renamed (a mutation); so the claim that the check runs on the original path
before any mutation and again before each of the two overwrite passes is
false at this input. -/
theorem claim_C3_counterexample :
    ((Shred envHappy fsSmall "f" 2).trace.filter (isLockCheckOn "f")) = [] ∧
    ((Shred envHappy fsSmall "f" 2).trace.filter isLockCheckEv) =
      [.lockCheck "f.tmp" false] ∧
    (Shred envHappy fsSmall "f" 2).trace.take 3 =
      [.renameEv "f" "f.tmp", .saveMeta ⟨0, "f.tmp", "f"⟩,
       .lockCheck "f.tmp" false] := by
  decide

/-- C3 amended: every invocation of Shred that gets past the stat and size
checks performs the contention-guard check exactly once: its trace splits as
pre ++ [lockCheck] ++ ext with no contention check in pre or ext, the single
check is made on the working path (path + ".tmp" when no usable checkpoint
exists, so only after the rename and first checkpoint write; the
checkpointed TempPath on resume), and the invocation returns the busy error
if and only if that single check reported the file locked.  No check is made
on the original path before mutation and no per-pass check occurs. -/
theorem claim_C3_amended (env : Env) (fs0 : FS) (path : String) (passes : Int)
    (e0 : Entry) (hfile : fsGet fs0 path = some e0)
    (hS : ¬ entrySize e0 > 1024 * 1024 * 1024) :
    ∃ pre tp lk ext,
      (Shred env fs0 path passes).trace = pre ++ [.lockCheck tp lk] ++ ext ∧
      (∀ ev ∈ pre, isLockCheckEv ev = false) ∧
      (∀ ev ∈ ext, isLockCheckEv ev = false) ∧
      tp = (if ((loadMetadata fs0 path).getD ⟨0, "", path⟩).TempPath = ""
            then path ++ ".tmp"
            else ((loadMetadata fs0 path).getD ⟨0, "", path⟩).TempPath) ∧
      ((Shred env fs0 path passes).result = .error .busy ↔ lk = true) := by
  by_cases hm : ((loadMetadata fs0 path).getD ⟨0, "", path⟩).TempPath = ""
  · rw [Shred_eval_fresh env fs0 path passes e0 hfile hS hm]
    obtain ⟨j, j2, ext, h1, h2, h3, h4, h5, h6, h7, h8, h9, h10, h11⟩ :=
      shredMain_spec env (entrySize e0) passes
        { (loadMetadata fs0 path).getD ⟨0, "", path⟩ with TempPath := path ++ ".tmp" }
        (doSave ⟨fsSet (fsErase fs0 path) (path ++ ".tmp") e0,
          [.renameEv path (path ++ ".tmp")], [], 0, 0⟩
          { (loadMetadata fs0 path).getD ⟨0, "", path⟩ with
              TempPath := path ++ ".tmp" })
    refine ⟨[.renameEv path (path ++ ".tmp"),
        .saveMeta { (loadMetadata fs0 path).getD ⟨0, "", path⟩ with
          TempPath := path ++ ".tmp" }],
      path ++ ".tmp",
      isFileLocked (fsGet (doSave ⟨fsSet (fsErase fs0 path) (path ++ ".tmp") e0,
        [.renameEv path (path ++ ".tmp")], [], 0, 0⟩
        { (loadMetadata fs0 path).getD ⟨0, "", path⟩ with
            TempPath := path ++ ".tmp" }).fs (path ++ ".tmp")).isSome env.tempLocked,
      ext, ?_, ?_, h4, by rw [if_pos hm], ⟨h11, fun hlk => (h5 hlk).1⟩⟩
    · rw [h3]
      simp [doSave, List.append_assoc]
    · intro ev hev
      fin_cases hev <;> rfl
  · rw [Shred_eval_resume env fs0 path passes e0 hfile hS hm]
    obtain ⟨j, j2, ext, h1, h2, h3, h4, h5, h6, h7, h8, h9, h10, h11⟩ :=
      shredMain_spec env (entrySize e0) passes
        ((loadMetadata fs0 path).getD ⟨0, "", path⟩) ⟨fs0, [], [], 0, 0⟩
    refine ⟨[], ((loadMetadata fs0 path).getD ⟨0, "", path⟩).TempPath,
      isFileLocked (fsGet fs0
        ((loadMetadata fs0 path).getD ⟨0, "", path⟩).TempPath).isSome env.tempLocked,
      ext, ?_, by simp, h4, by rw [if_neg hm], ⟨h11, fun hlk => (h5 hlk).1⟩⟩
    rw [h3]

theorem claim_C3_amended_witness :
    ∃ pre tp lk ext,
      (Shred envBusy fsSmall "f" 3).trace = pre ++ [.lockCheck tp lk] ++ ext ∧
      (∀ ev ∈ pre, isLockCheckEv ev = false) ∧
      (∀ ev ∈ ext, isLockCheckEv ev = false) ∧
      tp = (if ((loadMetadata fsSmall "f").getD ⟨0, "", "f"⟩).TempPath = ""
            then "f" ++ ".tmp"
            else ((loadMetadata fsSmall "f").getD ⟨0, "", "f"⟩).TempPath) ∧
      ((Shred envBusy fsSmall "f" 3).result = .error .busy ↔ lk = true) :=
  claim_C3_amended envBusy fsSmall "f" 3 (.data 1) (by decide) (by decide)

/-- C4: for a job with a checkpoint recording passesCompleted and a working
file present, an invocation with no contention and no I/O failure emits,
right after the single contention check, one block of events per overwrite
pass for pass = passesCompleted up to requiredPasses - 1: each block fills a
fresh random buffer whose length S is the byte length the initial os.Stat
reported for the file, writes it at offset 0 over the working file, and
persists passesCompleted = pass + 1 to the checkpoint before the next block
begins. -/
theorem claim_C4_overwrite_passes (env : Env) (fs0 : FS) (path : String)
    (passes : Int) (S : Nat) (m0 : ShredMetadata)
    (hfile : fsGet fs0 path = some (.data S)) (hS : ¬ S > 1024 * 1024 * 1024)
    (hmeta : loadMetadata fs0 path = some m0) (htne : m0.TempPath ≠ "")
    (hr : ∀ k, env.randOk k = true) (hw : ∀ k, env.writeOk k = true)
    (hnl : env.tempLocked = false)
    (htp : (fsGet fs0 m0.TempPath).isSome = true) :
    ∃ rest, (Shred env fs0 path passes).trace =
      .lockCheck m0.TempPath false ::
        (passBlocksExt m0.TempPath S m0 (passes - m0.Pass).toNat ++ rest) := by
  have hS2 : ¬ entrySize (Entry.data S) > 1024 * 1024 * 1024 := by
    simpa [entrySize] using hS
  have hm : ((loadMetadata fs0 path).getD ⟨0, "", path⟩).TempPath ≠ "" := by
    rw [hmeta]
    exact htne
  have hShred : Shred env fs0 path passes =
      shredMain env S passes m0 ⟨fs0, [], [], 0, 0⟩ := by
    rw [Shred_eval_resume env fs0 path passes _ hfile hS2 hm]
    simp [hmeta, entrySize]
  rw [hShred]
  obtain ⟨rest, htr⟩ :=
    shredMain_overwrite_prefix env S passes m0 ⟨fs0, [], [], 0, 0⟩ hr hw hnl htp
  refine ⟨rest, ?_⟩
  rw [htr]
  simp [List.append_assoc]

theorem claim_C4_overwrite_passes_witness :
    ∃ rest, (Shred envHappy fsStale "f" 3).trace =
      .lockCheck "f.tmp" false ::
        (passBlocksExt "f.tmp" 1 ⟨2, "f.tmp", "f"⟩ 1 ++ rest) :=
  claim_C4_overwrite_passes envHappy fsStale "f" 3 1 ⟨2, "f.tmp", "f"⟩
    (by decide) (by decide) (by decide) (by decide)
    (fun _ => rfl) (fun _ => rfl) rfl (by decide)

/-- C6: on a fresh job run to completion with no contention and no I/O
failure, the trace after the overwrite passes consists of exactly ten rename
rounds, round k renaming the working file from its current path to that path
followed by a dot and a fresh 12-character suffix and persisting the updated
TempPath to the checkpoint before the next round, followed by the
zero-length truncation of the final renamed file, then the removal of the
checkpoint file, then the removal of the renamed file, in that order; and
every generated suffix has length 12 with all characters drawn from the
62-character alphanumeric charset. -/
theorem claim_C6_obfuscation_cleanup (env : Env) (fs0 : FS) (path : String)
    (passes : Int) (S : Nat)
    (hfile : fsGet fs0 path = some (.data S)) (hS : ¬ S > 1024 * 1024 * 1024)
    (hmeta : loadMetadata fs0 path = none)
    (hr : ∀ k, env.randOk k = true) (hw : ∀ k, env.writeOk k = true)
    (hrm : ∀ p, env.removeOk p = true) (hnl : env.tempLocked = false) :
    (Shred env fs0 path passes).result = .ok () ∧
    (Shred env fs0 path passes).trace =
      [.renameEv path (path ++ ".tmp"), .saveMeta ⟨0, path ++ ".tmp", path⟩,
       .lockCheck (path ++ ".tmp") false]
      ++ passBlocksExt (path ++ ".tmp") S ⟨0, path ++ ".tmp", path⟩ passes.toNat
      ++ roundBlocksExt env passes.toNat
           ⟨((passes.toNat : Nat) : Int), path ++ ".tmp", path⟩ 10
      ++ [.truncateEv (tpSeq env passes.toNat (path ++ ".tmp") 10),
          .removeEv (path ++ ".shredmeta"),
          .removeEv (tpSeq env passes.toNat (path ++ ".tmp") 10)] ∧
    (∀ c0, (randomStringBytes (env.randBytes c0) 12).length = 12 ∧
      ∀ c ∈ (randomStringBytes (env.randBytes c0) 12).data, c ∈ charsetChars) := by
  have hS2 : ¬ entrySize (Entry.data S) > 1024 * 1024 * 1024 := by
    simpa [entrySize] using hS
  have hm : ((loadMetadata fs0 path).getD ⟨0, "", path⟩).TempPath = "" := by
    rw [hmeta]
    rfl
  have hShred : Shred env fs0 path passes =
      shredMain env S passes ⟨0, path ++ ".tmp", path⟩
        (doSave ⟨fsSet (fsErase fs0 path) (path ++ ".tmp") (Entry.data S),
          [.renameEv path (path ++ ".tmp")], [], 0, 0⟩
          ⟨0, path ++ ".tmp", path⟩) := by
    rw [Shred_eval_fresh env fs0 path passes _ hfile hS2 hm]
    simp [hmeta, Option.getD_none, entrySize]
  rw [hShred]
  have htp : (fsGet (doSave ⟨fsSet (fsErase fs0 path) (path ++ ".tmp") (Entry.data S),
      [.renameEv path (path ++ ".tmp")], [], 0, 0⟩
      ⟨0, path ++ ".tmp", path⟩).fs (path ++ ".tmp")).isSome = true := by
    simp only [doSave]
    exact isSome_fsGet_saveMetadata _ _ _ (isSome_fsGet_fsSet_self _ _ _)
  obtain ⟨hok, htr⟩ := shredMain_happy env S passes ⟨0, path ++ ".tmp", path⟩
    (doSave ⟨fsSet (fsErase fs0 path) (path ++ ".tmp") (Entry.data S),
      [.renameEv path (path ++ ".tmp")], [], 0, 0⟩
      ⟨0, path ++ ".tmp", path⟩) hr hw hrm hnl htp
  refine ⟨hok, ?_,
    fun c0 => ⟨randomStringBytes_length _ _, randomStringBytes_chars _ _⟩⟩
  rw [htr]
  simp [doSave, metaStorePath, sub_zero, zero_add, List.append_assoc]

theorem claim_C6_obfuscation_cleanup_witness :
    (Shred envHappy fsSmall "f" 1).result = .ok () ∧
    (Shred envHappy fsSmall "f" 1).trace =
      [.renameEv "f" "f.tmp", .saveMeta ⟨0, "f.tmp", "f"⟩,
       .lockCheck "f.tmp" false]
      ++ passBlocksExt "f.tmp" 1 ⟨0, "f.tmp", "f"⟩ 1
      ++ roundBlocksExt envHappy 1 ⟨1, "f.tmp", "f"⟩ 10
      ++ [.truncateEv (tpSeq envHappy 1 "f.tmp" 10), .removeEv "f.shredmeta",
          .removeEv (tpSeq envHappy 1 "f.tmp" 10)] := by
  have h := claim_C6_obfuscation_cleanup envHappy fsSmall "f" 1 1
    (by decide) (by decide) (by decide) (fun _ => rfl) (fun _ => rfl) (fun _ => rfl) rfl
  exact ⟨h.1, h.2.1⟩

theorem pairwise_le_replicate (n : Nat) (a : Int) :
    List.Pairwise (· ≤ ·) (List.replicate n a) := by
  induction n with
  | zero => simp
  | succ k ih =>
    rw [List.replicate_succ]
    exact List.Pairwise.cons (fun b hb => le_of_eq (List.eq_of_mem_replicate hb).symm) ih

theorem saves_segment_spec (p0 passes : Int) (j j2 : Nat)
    (hj : j ≤ (passes - p0).toNat) (hImp : j2 ≠ 0 → j = (passes - p0).toNat) :
    List.Pairwise (· ≤ ·)
      (((List.range j).map (fun (k : Nat) => p0 + ((k : Int) + 1)))
        ++ List.replicate j2 (p0 + (((passes - p0).toNat : Nat) : Int))) ∧
    ∀ v ∈ (((List.range j).map (fun (k : Nat) => p0 + ((k : Int) + 1)))
        ++ List.replicate j2 (p0 + (((passes - p0).toNat : Nat) : Int))),
      p0 ≤ v ∧ v ≤ max p0 passes := by
  have hmax : p0 + (((passes - p0).toNat : Nat) : Int) = max p0 passes := by
    rcases le_total p0 passes with hc | hc
    · rw [max_eq_right hc, Int.toNat_of_nonneg (by omega)]
      ring
    · rw [max_eq_left hc, Int.toNat_of_nonpos (by omega)]
      simp
  constructor
  · rw [List.pairwise_append]
    refine ⟨?_, pairwise_le_replicate _ _, ?_⟩
    · rw [List.pairwise_map]
      refine List.Pairwise.imp ?_ (List.pairwise_lt_range j)
      intro a b hab
      omega
    · intro x hx y hy
      obtain ⟨k, hk, rfl⟩ := List.mem_map.mp hx
      have hk2 := List.mem_range.mp hk
      have hj2ne : j2 ≠ 0 := by
        intro h0
        subst h0
        simp at hy
      have hjF := hImp hj2ne
      rw [List.eq_of_mem_replicate hy]
      omega
  · intro v hv
    rcases List.mem_append.mp hv with h | h
    · obtain ⟨k, hk, rfl⟩ := List.mem_map.mp h
      have hk2 := List.mem_range.mp hk
      refine ⟨by omega, ?_⟩
      rw [← hmax]
      omega
    · rw [List.eq_of_mem_replicate h]
      exact ⟨by omega, le_of_eq hmax⟩

theorem saves_with_pre_spec (p0 passes : Int) (j j2 : Nat)
    (hj : j ≤ (passes - p0).toNat) (hImp : j2 ≠ 0 → j = (passes - p0).toNat)
    (pre : List Int) (hpre : pre = [] ∨ pre = [p0]) :
    List.Pairwise (· ≤ ·)
      (pre ++ (((List.range j).map (fun (k : Nat) => p0 + ((k : Int) + 1)))
        ++ List.replicate j2 (p0 + (((passes - p0).toNat : Nat) : Int)))) ∧
    ∀ v ∈ pre ++ (((List.range j).map (fun (k : Nat) => p0 + ((k : Int) + 1)))
        ++ List.replicate j2 (p0 + (((passes - p0).toNat : Nat) : Int))),
      p0 ≤ v ∧ v ≤ max p0 passes := by
  obtain ⟨hseg1, hseg2⟩ := saves_segment_spec p0 passes j j2 hj hImp
  rcases hpre with rfl | rfl
  · exact ⟨by simpa using hseg1, by simpa using hseg2⟩
  · constructor
    · simp only [List.singleton_append]
      exact List.Pairwise.cons (fun b hb => (hseg2 b hb).1) hseg1
    · intro v hv
      simp only [List.singleton_append, List.mem_cons] at hv
      rcases hv with rfl | hv
      · exact ⟨le_refl _, le_max_left _ _⟩
      · exact hseg2 v hv

/-- C5 counterexample: with a pre-existing checkpoint recording
passesCompleted = 2 for file f and a re-invocation requesting only 1 pass,
the run persists passesCompleted = 2 in every one of its ten checkpoint
writes, so a persisted value strictly exceeds the requested pass count of
the invocation, contradicting the claim that it never does. -/
theorem claim_C5_counterexample :
    savesOf (Shred envHappy fsStale "f" 1).trace = List.replicate 10 2 ∧
    (2 : Int) ∈ savesOf (Shred envHappy fsStale "f" 1).trace ∧
    ¬ ((2 : Int) ≤ 1) := by
  decide

/-- C5 amended: in every invocation, the sequence of persisted
passesCompleted values is monotonically non-decreasing, every persisted
value is at least the value the invocation loaded from the checkpoint (0
for a fresh job, so in particular non-negative whenever the loaded value
is), and no persisted value exceeds the maximum of the loaded value and the
requested pass count; the requested pass count alone is an upper bound only
when it is at least the loaded value. -/
theorem claim_C5_amended (env : Env) (fs0 : FS) (path : String) (passes : Int) :
    List.Pairwise (· ≤ ·) (savesOf (Shred env fs0 path passes).trace) ∧
    ∀ v ∈ savesOf (Shred env fs0 path passes).trace,
      ((loadMetadata fs0 path).getD ⟨0, "", path⟩).Pass ≤ v ∧
      v ≤ max (((loadMetadata fs0 path).getD ⟨0, "", path⟩).Pass) passes := by
  cases hfile : fsGet fs0 path with
  | none =>
    rw [Shred_eval_notFound env fs0 path passes hfile]
    simp [savesOf]
  | some e0 =>
    by_cases hS : entrySize e0 > 1024 * 1024 * 1024
    · rw [Shred_eval_size env fs0 path passes e0 hfile hS]
      simp [savesOf]
    · by_cases hm : ((loadMetadata fs0 path).getD ⟨0, "", path⟩).TempPath = ""
      · rw [Shred_eval_fresh env fs0 path passes e0 hfile hS hm]
        obtain ⟨j, j2, ext, h1, h2, h3, h4, h5, h6, h7, h8, h9, h10, h11⟩ :=
          shredMain_spec env (entrySize e0) passes
            { (loadMetadata fs0 path).getD ⟨0, "", path⟩ with
                TempPath := path ++ ".tmp" }
            (doSave ⟨fsSet (fsErase fs0 path) (path ++ ".tmp") e0,
              [.renameEv path (path ++ ".tmp")], [], 0, 0⟩
              { (loadMetadata fs0 path).getD ⟨0, "", path⟩ with
                  TempPath := path ++ ".tmp" })
        rw [h3]
        have hsave : savesOf ((doSave ⟨fsSet (fsErase fs0 path) (path ++ ".tmp") e0,
            [.renameEv path (path ++ ".tmp")], [], 0, 0⟩
            { (loadMetadata fs0 path).getD ⟨0, "", path⟩ with
                TempPath := path ++ ".tmp" }).trace
            ++ [Ev.lockCheck ({ (loadMetadata fs0 path).getD ⟨0, "", path⟩ with
                  TempPath := path ++ ".tmp" } : ShredMetadata).TempPath
                (isFileLocked (fsGet (doSave ⟨fsSet (fsErase fs0 path) (path ++ ".tmp") e0,
                  [.renameEv path (path ++ ".tmp")], [], 0, 0⟩
                  { (loadMetadata fs0 path).getD ⟨0, "", path⟩ with
                      TempPath := path ++ ".tmp" }).fs
                  ({ (loadMetadata fs0 path).getD ⟨0, "", path⟩ with
                      TempPath := path ++ ".tmp" } : ShredMetadata).TempPath).isSome
                  env.tempLocked)]
            ++ ext)
            = (((loadMetadata fs0 path).getD ⟨0, "", path⟩).Pass) :: savesOf ext := by
          simp [doSave, savesOf_append, savesOf]
        rw [hsave, h6]
        exact saves_with_pre_spec _ passes j j2 h1 h7 _ (Or.inr rfl)
      · rw [Shred_eval_resume env fs0 path passes e0 hfile hS hm]
        obtain ⟨j, j2, ext, h1, h2, h3, h4, h5, h6, h7, h8, h9, h10, h11⟩ :=
          shredMain_spec env (entrySize e0) passes
            ((loadMetadata fs0 path).getD ⟨0, "", path⟩) ⟨fs0, [], [], 0, 0⟩
        rw [h3]
        have hsave : savesOf ((⟨fs0, [], [], 0, 0⟩ : St).trace
            ++ [Ev.lockCheck ((loadMetadata fs0 path).getD ⟨0, "", path⟩).TempPath
                (isFileLocked (fsGet (⟨fs0, [], [], 0, 0⟩ : St).fs
                  ((loadMetadata fs0 path).getD ⟨0, "", path⟩).TempPath).isSome
                  env.tempLocked)]
            ++ ext) = savesOf ext := by
          simp [savesOf_append, savesOf]
        rw [hsave, h6]
        exact saves_with_pre_spec _ passes j j2 h1 h7 _ (Or.inl rfl)

theorem claim_C5_amended_witness :
    ((loadMetadata fsStale "f").getD ⟨0, "", "f"⟩).Pass ≤ 2 ∧
    (2 : Int) ≤ max (((loadMetadata fsStale "f").getD ⟨0, "", "f"⟩).Pass) 1 :=
  (claim_C5_amended envHappy fsStale "f" 1).2 2 (by decide)

/-- C10 counterexample: in a run on the 1-byte file f with one pass in which
every step succeeds except the final os.Remove of the renamed working file
(the environment lets the checkpoint removal succeed but fails the file
removal with a permission or I/O error, matching the return-err branch of
the last remove in shred.go), Shred returns an error after checkpoint
writes occurred, yet the checkpoint file is gone from the final filesystem
and its removal event is in the trace; so the checkpoint does not survive
every post-checkpoint error return and is not removed only on the success
path. -/
theorem claim_C10_counterexample :
    (Shred envRemoveFail fsSmall "f" 1).result = .error .removeErr ∧
    savesOf (Shred envRemoveFail fsSmall "f" 1).trace ≠ [] ∧
    fsGet (Shred envRemoveFail fsSmall "f" 1).fs "f.shredmeta" = none ∧
    Ev.removeEv "f.shredmeta" ∈ (Shred envRemoveFail fsSmall "f" 1).trace := by
  decide

/-- C10 amended: on every error return of Shred occurring after the first
successful checkpoint write, the checkpoint file (stored at the loaded
record's OriginalPath + ".shredmeta") either still exists in the final
filesystem or its removal event is in the trace; and in the latter case the
invocation either returned ok or failed only at the final removal of the
renamed working file (the removeErr of the last os.Remove, the one step
after the checkpoint removal), the truncation having already been
performed.  All other error returns leave the checkpoint on disk. -/
theorem claim_C10_checkpoint_survives (env : Env) (fs0 : FS) (path : String)
    (passes : Int) :
    (∀ e, (Shred env fs0 path passes).result = .error e →
      savesOf (Shred env fs0 path passes).trace ≠ [] →
      (fsGet (Shred env fs0 path passes).fs
        (((loadMetadata fs0 path).getD ⟨0, "", path⟩).OriginalPath
          ++ ".shredmeta")).isSome = true ∨
      Ev.removeEv (((loadMetadata fs0 path).getD ⟨0, "", path⟩).OriginalPath
        ++ ".shredmeta") ∈ (Shred env fs0 path passes).trace) ∧
    (Ev.removeEv (((loadMetadata fs0 path).getD ⟨0, "", path⟩).OriginalPath
        ++ ".shredmeta") ∈ (Shred env fs0 path passes).trace →
      ((Shred env fs0 path passes).result = .ok () ∨
        (Shred env fs0 path passes).result = .error .removeErr) ∧
      ∃ t, Ev.truncateEv t ∈ (Shred env fs0 path passes).trace) := by
  cases hfile : fsGet fs0 path with
  | none =>
    rw [Shred_eval_notFound env fs0 path passes hfile]
    exact ⟨fun e he hsv => absurd rfl hsv, fun hmem => by simp at hmem⟩
  | some e0 =>
    by_cases hS : entrySize e0 > 1024 * 1024 * 1024
    · rw [Shred_eval_size env fs0 path passes e0 hfile hS]
      exact ⟨fun e he hsv => absurd rfl hsv, fun hmem => by simp at hmem⟩
    · by_cases hm : ((loadMetadata fs0 path).getD ⟨0, "", path⟩).TempPath = ""
      · rw [Shred_eval_fresh env fs0 path passes e0 hfile hS hm]
        obtain ⟨j, j2, ext, h1, h2, h3, h4, h5, h6, h7, h8, h9, h10, h11⟩ :=
          shredMain_spec env (entrySize e0) passes
            { (loadMetadata fs0 path).getD ⟨0, "", path⟩ with
                TempPath := path ++ ".tmp" }
            (doSave ⟨fsSet (fsErase fs0 path) (path ++ ".tmp") e0,
              [.renameEv path (path ++ ".tmp")], [], 0, 0⟩
              { (loadMetadata fs0 path).getD ⟨0, "", path⟩ with
                  TempPath := path ++ ".tmp" })
        constructor
        · intro e he _
          rcases h9 e he (Or.inl (by
              simp only [doSave]
              exact isSome_fsGet_saveMetadata_self _ _)) with hP | hP
          · exact Or.inl hP
          · refine Or.inr ?_
            rw [h3]
            exact List.mem_append.mpr (Or.inr hP)
        · intro hmem
          rw [h3] at hmem
          rcases List.mem_append.mp hmem with h | h
          · rcases List.mem_append.mp h with h2 | h2
            · simp [doSave] at h2
            · simp at h2
          · obtain ⟨hres, t, ht⟩ := h10 h
            refine ⟨hres, t, ?_⟩
            rw [h3]
            exact List.mem_append.mpr (Or.inr ht)
      · rw [Shred_eval_resume env fs0 path passes e0 hfile hS hm]
        obtain ⟨j, j2, ext, h1, h2, h3, h4, h5, h6, h7, h8, h9, h10, h11⟩ :=
          shredMain_spec env (entrySize e0) passes
            ((loadMetadata fs0 path).getD ⟨0, "", path⟩) ⟨fs0, [], [], 0, 0⟩
        constructor
        · intro e he hsv
          have hd : j ≠ 0 ∨ j2 ≠ 0 := by
            by_contra hc
            push_neg at hc
            obtain ⟨hj0, hj20⟩ := hc
            apply hsv
            rw [h3, savesOf_append, savesOf_append, h6, hj0, hj20]
            simp [savesOf]
          rcases h9 e he (Or.inr hd) with hP | hP
          · exact Or.inl hP
          · refine Or.inr ?_
            rw [h3]
            exact List.mem_append.mpr (Or.inr hP)
        · intro hmem
          rw [h3] at hmem
          rcases List.mem_append.mp hmem with h | h
          · rcases List.mem_append.mp h with h2 | h2
            · simp at h2
            · simp at h2
          · obtain ⟨hres, t, ht⟩ := h10 h
            refine ⟨hres, t, ?_⟩
            rw [h3]
            exact List.mem_append.mpr (Or.inr ht)

theorem claim_C10_checkpoint_survives_witness :
    ((Shred envRemoveFail fsSmall "f" 1).result = .ok () ∨
      (Shred envRemoveFail fsSmall "f" 1).result = .error .removeErr) ∧
    ∃ t, Ev.truncateEv t ∈ (Shred envRemoveFail fsSmall "f" 1).trace :=
  (claim_C10_checkpoint_survives envRemoveFail fsSmall "f" 1).2 (by decide)

end FileShred
